import Mathlib

/-!
Verification of the flatsurf flat-triangulation engine against its
specification.  The C++ sources are embedded shallowly: the exact numeric
type `T` is a linear ordered commutative ring `R` (covering the rational,
integer and real-algebraic backends of the library), half edges are the
nonzero integers (`-he` is the reversed half edge), and the per-edge vectors
are pairs of elements of `R`.  Functions that throw C++ exceptions are
embedded as `Except CppError` valued functions.  Concrete example surfaces
instantiate `R := ℤ`, the integer backend.
-/

namespace Flatsurf

/-- Result type of the counter-clockwise predicate `CCW`. -/
inductive CCW where
  | COUNTERCLOCKWISE
  | CLOCKWISE
  | COLLINEAR
deriving DecidableEq

/-- Result type of the relative orientation predicate `ORIENTATION`. -/
inductive ORIENTATION where
  | SAME
  | OPPOSITE
  | ORTHOGONAL
deriving DecidableEq

/-- The classification returned by `FlatTriangulation::delaunay(Edge)`. -/
inductive Delaunay where
  | NON_DELAUNAY
  | DELAUNAY
  | AMBIGUOUS
deriving DecidableEq

/-- The kinds of C++ exceptions thrown by the library: `std::invalid_argument`
(raised by `LIBFLATSURF_CHECK_ARGUMENT`), and `std::logic_error` (raised by
`LIBFLATSURF_ASSERT`, `LIBFLATSURF_UNREACHABLE` and the deliberate
`not implemented` stubs). -/
inductive CppError where
  | invalidArgument
  | logicError
deriving DecidableEq

instance {ε α : Type} [DecidableEq ε] [DecidableEq α] : DecidableEq (Except ε α)
  | .error a, .error b => decidable_of_iff (a = b) (by simp)
  | .error _, .ok _ => isFalse (by simp)
  | .ok _, .error _ => isFalse (by simp)
  | .ok a, .ok b => decidable_of_iff (a = b) (by simp)

variable {R : Type} [LinearOrderedCommRing R]

/-- Embedding of the exact 2-dimensional vector type `Vector<T>`:
a pair of coordinates. -/
abbrev Vec (R : Type) : Type := R × R

/-- The x coordinate of a vector, `Vector::x()`. -/
def Vec.x (v : Vec R) : R := v.1

/-- The y coordinate of a vector, `Vector::y()`. -/
def Vec.y (v : Vec R) : R := v.2

/-- Cross product determinant of two vectors (the signed area form used by
the ccw predicate). -/
def cross (v w : Vec R) : R := v.x * w.y - v.y * w.x

/-- Dot product of two vectors; `v * w` on `Vector<T>`. -/
def dot (v w : Vec R) : R := v.x * w.x + v.y * w.y

/-- Modelled from the spec: `Vector<T>::ccw`, the exact counter-clockwise
predicate (its implementation is not among the given sources).  It returns
the side on which `w` lies relative to `v`, by the sign of the cross
product. -/
def ccw (v w : Vec R) : CCW :=
  if 0 < cross v w then .COUNTERCLOCKWISE
  else if cross v w < 0 then .CLOCKWISE
  else .COLLINEAR

/-- Modelled from the spec: `Vector<T>::orientation`, the exact relative
orientation (SAME/OPPOSITE/ORTHOGONAL) of two vectors, by the sign of the
dot product (its implementation is not among the given sources). -/
def orientationOf (v w : Vec R) : ORIENTATION :=
  if 0 < dot v w then .SAME
  else if dot v w < 0 then .OPPOSITE
  else .ORTHOGONAL

/-- The flat triangulation: a combinatorial half-edge structure together with
one exact vector per edge.  `halfEdges` lists the half edges (signed, both
`he` and `-he` appear), `nextInFaceMap` is the face-cycle permutation, and
`edgeVec` stores the vector of each positive half edge, as the odd
(`OddHalfEdgeMap`) storage of the library does. -/
structure FlatTriangulation (R : Type) where
  halfEdges : List ℤ
  nextInFaceMap : ℤ → ℤ
  edgeVec : ℤ → Vec R

namespace FlatTriangulation

/-- `FlatTriangulation::fromHalfEdge`: the vector of a half edge.  The stored
map is odd by construction: the negative half edge gets the negated vector,
exactly as `OddHalfEdgeMap` stores one value per edge. -/
def fromHalfEdge (S : FlatTriangulation R) (h : ℤ) : Vec R :=
  if 0 < h then S.edgeVec h else -(S.edgeVec (-h))

/-- `OddHalfEdgeMap::set`: update the vector of half edge `e` to `v` (and of
`-e` to `-v`). -/
def setVec (S : FlatTriangulation R) (e : ℤ) (v : Vec R) : FlatTriangulation R :=
  { S with edgeVec := fun k =>
      if 0 < e then (if k = e then v else S.edgeVec k)
      else (if k = -e then -v else S.edgeVec k) }

/-- `FlatTriangulationCombinatorial::nextInFace`. -/
def nextInFace (S : FlatTriangulation R) (h : ℤ) : ℤ := S.nextInFaceMap h

/-- `FlatTriangulationCombinatorial::previousInFace`.  Faces are 3-cycles of
the face permutation (an invariant of the data structure), so the inverse of
`nextInFace` is obtained by applying it twice. -/
def previousInFace (S : FlatTriangulation R) (h : ℤ) : ℤ :=
  S.nextInFaceMap (S.nextInFaceMap h)

/-- `FlatTriangulationCombinatorial::nextAtVertex`, derived from the face
permutation by the standard half-edge duality `nextAtVertex(he) =
-previousInFace(he)` that the spec states as an invariant of the mesh. -/
def nextAtVertex (S : FlatTriangulation R) (h : ℤ) : ℤ := -(S.previousInFace h)

/-- `FlatTriangulationCombinatorial::previousAtVertex`, the inverse of
`nextAtVertex`: `previousAtVertex(he) = nextInFace(-he)`. -/
def previousAtVertex (S : FlatTriangulation R) (h : ℤ) : ℤ := S.nextInFaceMap (-h)

/-- The three sides of the face of the half edge `f`, in face order:
`FlatTriangulationCombinatorial::face`. -/
def face3 (S : FlatTriangulation R) (f : ℤ) : List ℤ :=
  [f, S.nextInFaceMap f, S.nextInFaceMap (S.nextInFaceMap f)]

/-- `ImplementationOf<FlatTriangulation>::check`: verify that each face is
closed (the three vectors sum to zero, and no edge is trivial) and that each
face is positively oriented (consecutive face vectors turn strictly
counter-clockwise).  The source iterates over all half edges, skipping
boundary half edges; the model covers the closed surfaces (no boundary). -/
def check (S : FlatTriangulation R) : Bool :=
  (S.halfEdges.all fun e =>
    decide (S.fromHalfEdge e ≠ 0) &&
    decide (S.fromHalfEdge e + S.fromHalfEdge (S.nextInFace e) +
      S.fromHalfEdge (S.nextInFace (S.nextInFace e)) = 0)) &&
  (S.halfEdges.all fun e =>
    decide (ccw (S.fromHalfEdge e) (S.fromHalfEdge (S.nextInFace e)) ≠ .COLLINEAR) &&
    decide (ccw (S.fromHalfEdge e) (S.fromHalfEdge (S.nextInFace e)) = .COUNTERCLOCKWISE))

/-- `FlatTriangulation::convex(e, strict)`: whether the quadrilateral formed
by the two faces attached to `e` is (strictly) convex. -/
def convex (S : FlatTriangulation R) (e : ℤ) (strict : Bool) : Bool :=
  if strict then
    decide (ccw (S.fromHalfEdge (S.previousAtVertex e)) (S.fromHalfEdge (S.nextAtVertex e)) =
      .COUNTERCLOCKWISE) &&
    decide (ccw (S.fromHalfEdge (S.previousAtVertex (-e))) (S.fromHalfEdge (S.nextAtVertex (-e))) =
      .COUNTERCLOCKWISE)
  else
    decide (ccw (S.fromHalfEdge (S.previousAtVertex e)) (S.fromHalfEdge (S.nextAtVertex e)) ≠
      .CLOCKWISE) &&
    decide (ccw (S.fromHalfEdge (S.previousAtVertex (-e))) (S.fromHalfEdge (S.nextAtVertex (-e))) ≠
      .CLOCKWISE)

/-- Modelled from the spec for the combinatorial part (the implementation of
`FlatTriangulationCombinatorial::flip` is not among the given sources): the
flip removes edge `e` and re-triangulates the two adjacent triangles
`(e, a, b)` and `(-e, c, d)` along the opposite diagonal, producing the faces
`(e, d, a)` and `(-e, b, c)`; the orientation of the new diagonal is a fixed
convention (the spec does not prescribe one).  The vector of the flipped half
edge is then recomputed exactly as
`ImplementationOf<FlatTriangulation>::updateAfterFlip` does on the flipped
combinatorics: `vectors.set(flip, vectors.get(-nextInFace(flip)) +
vectors.get(-previousInFace(flip)))`, i.e. the parallelogram law. -/
def flipComb (S : FlatTriangulation R) (e : ℤ) : FlatTriangulation R :=
  let a := S.nextInFaceMap e
  let b := S.nextInFaceMap a
  let c := S.nextInFaceMap (-e)
  let d := S.nextInFaceMap c
  let nx : ℤ → ℤ := fun h =>
    if h = e then d else if h = d then a else if h = a then e
    else if h = -e then b else if h = b then c else if h = c then -e
    else S.nextInFaceMap h
  let S' := S.setVec e (S.fromHalfEdge (-d) + S.fromHalfEdge (-a))
  { S' with nextInFaceMap := nx }

/-- `ImplementationOf<FlatTriangulation<T>>::flip`: check the argument is a
strictly convex edge (`std::invalid_argument` otherwise), perform the
combinatorial flip together with the tracked vector update, and re-verify the
full invariant (`check`). -/
def flip (S : FlatTriangulation R) (e : ℤ) : Except CppError (FlatTriangulation R) :=
  if S.convex e true then
    let S' := S.flipComb e
    if check S' then .ok S' else .error .invalidArgument
  else .error .invalidArgument

/-- The `FlatTriangulation` constructor from a combinatorial structure and a
vector-per-half-edge assignment: it runs `self->check()` and fails with
`std::invalid_argument` if the invariant does not hold. -/
def mk' (hE : List ℤ) (nx : ℤ → ℤ) (ev : ℤ → Vec R) :
    Except CppError (FlatTriangulation R) :=
  let S : FlatTriangulation R := ⟨hE, nx, ev⟩
  if check S then .ok S else .error .invalidArgument

/-- Equality of the underlying combinatorial triangulations: the half edge
sets and the face permutations agree exactly (the vertex permutation is the
dual of the face permutation, so its agreement is implied). -/
def combEq (S1 S2 : FlatTriangulation R) : Bool :=
  decide (S1.halfEdges = S2.halfEdges) &&
  S1.halfEdges.all fun h => decide (S1.nextInFaceMap h = S2.nextInFaceMap h)

/-- `FlatTriangulation::operator==`: the combinatorial structures agree and
every half edge carries the same vector. -/
def surfEq (S1 S2 : FlatTriangulation R) : Bool :=
  combEq S1 S2 &&
  S1.halfEdges.all fun h => decide (S1.fromHalfEdge h = S2.fromHalfEdge h)

/-- Well-formedness of the combinatorial structure, as the spec states it:
half edges are nonzero and closed under reversal, the face permutation maps
half edges to half edges, and every face is a triangle (the face permutation
cubes to the identity). -/
def CombValid (S : FlatTriangulation R) : Prop :=
  ∀ h ∈ S.halfEdges, h ≠ 0 ∧ -h ∈ S.halfEdges ∧ S.nextInFaceMap h ∈ S.halfEdges ∧
    S.nextInFaceMap (S.nextInFaceMap (S.nextInFaceMap h)) = h

instance (S : FlatTriangulation R) : Decidable (CombValid S) :=
  inferInstanceAs (Decidable (∀ h ∈ S.halfEdges, _ ∧ _ ∧ _ ∧ _))

/-- The geometric invariant exactly as the specification words it: for every
(non-boundary) face, the three half-edge vectors of the face sum to the zero
vector, and each face vector turns strictly counter-clockwise to the next one
in the face. -/
def GeometricInvariant (S : FlatTriangulation R) : Prop :=
  ∀ h ∈ S.halfEdges,
    S.fromHalfEdge h + S.fromHalfEdge (S.nextInFace h) +
      S.fromHalfEdge (S.nextInFace (S.nextInFace h)) = 0 ∧
    ccw (S.fromHalfEdge h) (S.fromHalfEdge (S.nextInFace h)) = .COUNTERCLOCKWISE

/-- `FlatTriangulation::delaunay(Edge)`: classify an edge by the sign of the
exact 3×3 in-circle determinant.  `edge` is identified by its positive half
edge `e`; the two adjacent triangles are placed in coordinates where the
fourth corner `d` is the origin, following the source line by line. -/
def delaunay (S : FlatTriangulation R) (e : ℤ) : Delaunay :=
  let ca := S.fromHalfEdge e
  let cb := S.fromHalfEdge (S.nextAtVertex e)
  let dc := S.fromHalfEdge (-(S.nextInFace (-e)))
  let a := dc + ca
  let b := dc + cb
  let c := dc
  let det : R :=
    a.x * (b.y * (c.x * c.x + c.y * c.y) - (b.x * b.x + b.y * b.y) * c.y) -
    b.x * (a.y * (c.x * c.x + c.y * c.y) - c.y * (a.x * a.x + a.y * a.y)) +
    c.x * (a.y * (b.x * b.x + b.y * b.y) - b.y * (a.x * a.x + a.y * a.y))
  if det < 0 then .DELAUNAY
  else if det = 0 then .AMBIGUOUS
  else .NON_DELAUNAY

/-- The determinant expression inside `delaunay(Edge)`, transcribed from the
source's `det` lambda applied to the rows `a`, `b`, `c`. -/
def delaunayDet (S : FlatTriangulation R) (e : ℤ) : R :=
  let ca := S.fromHalfEdge e
  let cb := S.fromHalfEdge (S.nextAtVertex e)
  let dc := S.fromHalfEdge (-(S.nextInFace (-e)))
  let a := dc + ca
  let b := dc + cb
  let c := dc
  a.x * (b.y * (c.x * c.x + c.y * c.y) - (b.x * b.x + b.y * b.y) * c.y) -
  b.x * (a.y * (c.x * c.x + c.y * c.y) - c.y * (a.x * a.x + a.y * a.y)) +
  c.x * (a.y * (b.x * b.x + b.y * b.y) - b.y * (a.x * a.x + a.y * a.y))

/-- Spec-side formulation for C5: the standard 3×3 in-circle matrix of the two
triangles adjacent to the edge, in coordinates where the fourth corner `d` is
the origin — rows `(pₓ, p_y, pₓ² + p_y²)` for the corners `a`, `b`, `c`. -/
def inCircleMatrix (S : FlatTriangulation R) (e : ℤ) : Matrix (Fin 3) (Fin 3) R :=
  let ca := S.fromHalfEdge e
  let cb := S.fromHalfEdge (S.nextAtVertex e)
  let dc := S.fromHalfEdge (-(S.nextInFace (-e)))
  let a := dc + ca
  let b := dc + cb
  let c := dc
  Matrix.of ![![a.x, a.y, a.x * a.x + a.y * a.y],
              ![b.x, b.y, b.x * b.x + b.y * b.y],
              ![c.x, c.y, c.x * c.x + c.y * c.y]]

/-- The cyclic list of half edges at the vertex of `stop`, unfolded with
explicit fuel: the source's `atVertex(vertex)` walks `nextAtVertex` starting
at a representative half edge until it returns to the start. -/
def atVertexAux (S : FlatTriangulation R) (stop : ℤ) : ℕ → ℤ → List ℤ
  | 0, _ => []
  | n + 1, cur =>
      cur :: (if S.nextAtVertex cur = stop then [] else atVertexAux S stop n (S.nextAtVertex cur))

/-- `atVertex(vertex)` for the vertex represented by half edge `h`: the orbit
of `h` under `nextAtVertex`.  The number of half edges bounds the orbit length
on any valid surface, so it serves as fuel. -/
def atVertexList (S : FlatTriangulation R) (h : ℤ) : List ℤ :=
  atVertexAux S h S.halfEdges.length h

/-- `FlatTriangulation::angle(Vertex)`: walk the outgoing half edges of the
vertex of `h` and count the transitions from `x ≥ 0` to `x < 0` of their
vectors — the number of times the direction crosses the positive vertical,
i.e. the total angle in multiples of 2π. -/
def angleAt (S : FlatTriangulation R) (h : ℤ) : ℕ :=
  ((atVertexList S h).map fun cur =>
    if 0 ≤ (S.fromHalfEdge cur).x ∧ (S.fromHalfEdge (S.nextAtVertex cur)).x < 0 then 1
    else 0).sum

/-- `vertices()`: one representative half edge per vertex, in first-occurrence
order of the half-edge list. -/
def verticesReps (S : FlatTriangulation R) : List ℤ :=
  S.halfEdges.foldl
    (fun acc h => if acc.any (fun r => h ∈ atVertexList S r) then acc else acc ++ [h]) []

/-- The squared euclidean length `fromHalfEdge(e) * fromHalfEdge(e)` used by
`eliminateMarkedPoints` to compare candidate collapse edges. -/
def lenSq (S : FlatTriangulation R) (h : ℤ) : R :=
  dot (S.fromHalfEdge h) (S.fromHalfEdge h)

/-- The body of the inner loop of `eliminateMarkedPoints` over the outgoing
half edges of the angle-1 vertex `v`: skip `out` when its target is `v` itself
(`Vertex::target(out) = Vertex::source(-out)`, so the test is `-out` in the
orbit of `v`); otherwise keep the current candidate when its squared length is
strictly smaller, else replace it by `out`. -/
def edgeStep (S : FlatTriangulation R) (v : ℤ) (col : Option ℤ) (out : ℤ) : Option ℤ :=
  if -out ∈ atVertexList S v then col
  else
    match col with
    | none => some out
    | some c => if lenSq S c < lenSq S out then col else some out

/-- The inner loop of `eliminateMarkedPoints` over `atVertex(v)`. -/
def edgeSelect (S : FlatTriangulation R) (v : ℤ) (col : Option ℤ) : Option ℤ :=
  (atVertexList S v).foldl (edgeStep S v) col

/-- The vertex-skip test of `eliminateMarkedPoints`: with a candidate collapse
`c` present, a vertex with strictly more outgoing half edges than the source
vertex of `c` is skipped (the source's `vertex.outgoing().size() >
Vertex::source(*collapse).outgoing().size()`; the orbit of `c` is the outgoing
list of its source vertex). -/
def vertexSkip (S : FlatTriangulation R) (col : Option ℤ) (v : ℤ) : Bool :=
  match col with
  | some c => decide ((atVertexList S c).length < (atVertexList S v).length)
  | none => false

/-- The body of the outer loop of `eliminateMarkedPoints` over the vertices:
only vertices of total angle 2π participate, the vertex-skip test is applied,
then the inner loop scans the outgoing half edges. -/
def vertexStep (S : FlatTriangulation R) (col : Option ℤ) (v : ℤ) : Option ℤ :=
  if angleAt S v = 1 then
    if vertexSkip S col v then col else edgeSelect S v col
  else col

/-- The selection phase of `eliminateMarkedPoints()`: fold the vertex loop
over all vertices starting from no candidate. -/
def selectCollapse (S : FlatTriangulation R) : Option ℤ :=
  (verticesReps S).foldl (vertexStep S) none

end FlatTriangulation

/-- The square torus: the unit square with opposite sides glued, triangulated
by the diagonal into faces `(1, 2, 3)` and `(-1, -2, -3)`, with edge vectors
`(1,0)`, `(0,1)` and `(-1,-1)`. -/
def torus : FlatTriangulation ℤ where
  halfEdges := [1, -1, 2, -2, 3, -3]
  nextInFaceMap := fun h =>
    if h = 1 then 2 else if h = 2 then 3 else if h = 3 then 1
    else if h = -1 then -2 else if h = -2 then -3 else if h = -3 then -1
    else h
  edgeVec := fun k =>
    if k = 1 then ((1 : ℤ), (0 : ℤ)) else if k = 2 then ((0 : ℤ), (1 : ℤ))
    else ((-1 : ℤ), (-1 : ℤ))

/-- A square torus of side 15 with one marked point `P = (5, 6)` in addition
to the corner vertex `V`: faces `(1, 2, -3)`, `(3, -5, 4)`, `(-1, -6, 5)` and
`(-2, -4, 6)`, where the half edges `4`, `5`, `6` run from `P` to the three
copies of `V` at `(0,0)`, `(15,15)` and `(0,15)`.  Both vertices have total
angle 2π; `P` has 3 outgoing half edges of squared lengths 61, 181 and 106,
`V` has 9. -/
def markedTorus : FlatTriangulation ℤ where
  halfEdges := [1, -1, 2, -2, 3, -3, 4, -4, 5, -5, 6, -6]
  nextInFaceMap := fun h =>
    if h = 1 then 2 else if h = 2 then -3 else if h = -3 then 1
    else if h = 3 then -5 else if h = -5 then 4 else if h = 4 then 3
    else if h = -1 then -6 else if h = -6 then 5 else if h = 5 then -1
    else if h = -2 then -4 else if h = -4 then 6 else if h = 6 then -2
    else h
  edgeVec := fun k =>
    if k = 1 then ((15 : ℤ), (0 : ℤ)) else if k = 2 then ((0 : ℤ), (15 : ℤ))
    else if k = 3 then ((15 : ℤ), (15 : ℤ)) else if k = 4 then ((-5 : ℤ), (-6 : ℤ))
    else if k = 5 then ((10 : ℤ), (9 : ℤ)) else ((-5 : ℤ), (9 : ℤ))

/-- The involution of half edge labels that exchanges `e` and `-e` and fixes
every other half edge. -/
def eSwap (e h : ℤ) : ℤ := if h = e then -e else if h = -e then e else h

/-- The surface `S` with the half edge `e` relabelled to `-e`: the face
permutation is conjugated by the label swap and the vector of `e` is negated.
Flipping a strictly convex edge twice produces exactly this surface. -/
def FlatTriangulation.reverseEdgeLabel (S : FlatTriangulation R) (e : ℤ) :
    FlatTriangulation R where
  halfEdges := S.halfEdges
  nextInFaceMap := fun h => eSwap e (S.nextInFaceMap (eSwap e h))
  edgeVec := (S.setVec e (-(S.fromHalfEdge e))).edgeVec

/-- The data of a `Point<Surface>`: a reference half edge `face` and
barycentric coordinates `a`, `b`, `c` with respect to the corners
`source(face)`, `source(nextInFace(face))`, `source(previousInFace(face))` of
its face. -/
structure PointData (R : Type) where
  face : ℤ
  a : R
  b : R
  c : R
deriving DecidableEq

namespace FlatTriangulation

/-- `ImplementationOf<Point>::rotated(face)`: the coordinates of the point
re-ordered so that they refer to `face`, one of the (up to rotation) three
half edges delimiting the point's face. -/
def rotatedTriple (S : FlatTriangulation R) (p : PointData R) (f : ℤ) : R × R × R :=
  if f = p.face then (p.a, p.b, p.c)
  else if f = S.nextInFace p.face then (p.b, p.c, p.a)
  else (p.c, p.a, p.b)

/-- The while loop of `ImplementationOf<Point>::normalize()`: while `c` is
nonzero or `a` is zero, move the reference half edge one step forward in the
face and rotate the coordinates accordingly.  On coordinates that passed the
preceding guards (all nonnegative, positive sum) the loop stops after at most
two rotations, so any fuel ≥ 2 computes it exactly. -/
def normalizeLoop (S : FlatTriangulation R) : ℕ → PointData R → PointData R
  | 0, p => p
  | fuel + 1, p =>
      if p.c ≠ 0 ∨ p.a = 0 then
        let f := S.nextInFace p.face
        let r := rotatedTriple S p f
        normalizeLoop S fuel ⟨f, r.1, r.2.1, r.2.2⟩
      else p

/-- The tail of `ImplementationOf<Point>::normalize()` after the guards:
return immediately if all coordinates are positive, otherwise rotate until
the coordinates have the normal form (`c = 0` and `a ≠ 0`). -/
def normalizePost (S : FlatTriangulation R) (p : PointData R) :
    Except CppError (PointData R) :=
  if 0 < p.a ∧ 0 < p.b ∧ 0 < p.c then .ok p
  else .ok (normalizeLoop S 3 p)

/-- `ImplementationOf<Point>::normalize()`: reject coordinates that sum to
zero (`std::invalid_argument`), reject a negative coordinate
(`std::logic_error`, "not implemented: cannot normalize point outside of a
face"), flip all signs if the sum is negative, and finish with
`normalizePost`. -/
def normalizePoint (S : FlatTriangulation R) (p : PointData R) :
    Except CppError (PointData R) :=
  if p.a + p.b + p.c = 0 then .error .invalidArgument
  else if p.a < 0 ∨ p.b < 0 ∨ p.c < 0 then .error .logicError
  else if p.a + p.b + p.c < 0 then normalizePost S ⟨p.face, -p.a, -p.b, -p.c⟩
  else normalizePost S p

/-- The `Point(surface, face, a, b, c)` constructor: store the data and run
`normalize()`. -/
def mkPoint (S : FlatTriangulation R) (f : ℤ) (a b c : R) :
    Except CppError (PointData R) :=
  normalizePoint S ⟨f, a, b, c⟩

/-- Equality of the vertices `Vertex::source(h)` and `Vertex::source(k)`: a
vertex is the orbit of a half edge under `nextAtVertex`, so the sources agree
exactly when `k` lies in the orbit of `h`. -/
def vertexEqB (S : FlatTriangulation R) (h k : ℤ) : Bool :=
  decide (k ∈ atVertexList S h)

/-- `Point::on(edge)` for the edge of the half edge `side`: a vertex point
(normal form `b = c = 0`) is on the edge when it is one of its two endpoints;
any other point is on it when its own edge (normal form `c = 0`) is that
edge. -/
def pointOn (S : FlatTriangulation R) (p : PointData R) (side : ℤ) : Bool :=
  if p.b = 0 ∧ p.c = 0 then
    vertexEqB S p.face side || vertexEqB S p.face (-side)
  else
    decide (p.c = 0) && decide (p.face = side ∨ p.face = -side)

/-- `Point::in(face)`: the point's reference half edge is a side of the face,
or the point is on one of its sides. -/
def pointIn (S : FlatTriangulation R) (p : PointData R) (f : ℤ) : Bool :=
  (face3 S f).any (fun side => decide (p.face = side)) ||
  (face3 S f).any (fun side => pointOn S p side)

/-- One step of the edge scan of `Point::coordinates(face)`: if the point's
face is the reverse of `side` and it lies on that edge (`c = 0`), re-express
it with swapped weights; if the reverse of `side` is the previous side of the
point's face and the point is the source vertex (`b = c = 0`), re-express it
at `side`. -/
def sideCoord (S : FlatTriangulation R) (p : PointData R) (side : ℤ) :
    Option (PointData R) :=
  if p.face = -side ∧ p.c = 0 then some ⟨side, p.b, p.a, p.c⟩
  else if S.previousInFace p.face = -side ∧ p.b = 0 ∧ p.c = 0 then
    some ⟨side, p.a, p.b, p.c⟩
  else none

/-- `Point::coordinates(face)`: check the point is in the face
(`std::invalid_argument` otherwise); return the stored coordinates rotated to
`face` if the point's own face is a side; otherwise translate across an edge
(the scan of the two per-side conditions, in face order); otherwise the point
must be a vertex (`std::logic_error` if not) and it is looked up among the
face's corners (`std::logic_error` — UNREACHABLE — if absent). -/
def coordinates (S : FlatTriangulation R) (p : PointData R) (f : ℤ) :
    Except CppError (R × R × R) :=
  if ¬ (pointIn S p f = true) then .error .invalidArgument
  else if (face3 S f).any (fun side => decide (side = p.face)) then
    .ok (rotatedTriple S p f)
  else
    match (face3 S f).findSome? (sideCoord S p) with
    | some q => .ok (rotatedTriple S q f)
    | none =>
        if p.b = 0 ∧ p.c = 0 then
          match (face3 S f).find? (fun side => vertexEqB S p.face side) with
          | some side => .ok (rotatedTriple S ⟨side, 1, 0, 0⟩ f)
          | none => .error .logicError
        else .error .logicError

/-- `Point::operator==`: the right-hand point must lie in the left-hand
point's face; vertices compare as vertices; otherwise the right-hand point's
coordinates are re-expressed in the left-hand face and compared after
cross-multiplying by the two coordinate sums (scale invariance). -/
def pointEqB (S : FlatTriangulation R) (lhs rhs : PointData R) : Bool :=
  if ¬ (pointIn S rhs lhs.face = true) then false
  else if lhs.b = 0 ∧ lhs.c = 0 then
    decide (rhs.b = 0) && decide (rhs.c = 0) && vertexEqB S lhs.face rhs.face
  else
    match coordinates S rhs lhs.face with
    | .ok r =>
        decide ((lhs.a + lhs.b + lhs.c) * r.1 = (r.1 + r.2.1 + r.2.2) * lhs.a) &&
        decide ((lhs.a + lhs.b + lhs.c) * r.2.1 = (r.1 + r.2.1 + r.2.2) * lhs.b) &&
        decide ((lhs.a + lhs.b + lhs.c) * r.2.2 = (r.1 + r.2.1 + r.2.2) * lhs.c)
    | .error _ => false

/-- The normal form that `normalize()` establishes and the `Point` class
maintains: the reference half edge is a half edge of the surface and the
coordinates are positive-interior `(+,+,+)`, edge `(+,+,0)` or vertex
`(+,0,0)`. -/
def PointNormal (S : FlatTriangulation R) (p : PointData R) : Prop :=
  p.face ∈ S.halfEdges ∧
  ((0 < p.a ∧ 0 < p.b ∧ 0 < p.c) ∨ (0 < p.a ∧ 0 < p.b ∧ p.c = 0) ∨
   (0 < p.a ∧ p.b = 0 ∧ p.c = 0))

instance (S : FlatTriangulation R) (p : PointData R) : Decidable (PointNormal S p) :=
  inferInstanceAs (Decidable (p.face ∈ S.halfEdges ∧
    ((0 < p.a ∧ 0 < p.b ∧ 0 < p.c) ∨ (0 < p.a ∧ 0 < p.b ∧ p.c = 0) ∨
     (0 < p.a ∧ p.b = 0 ∧ p.c = 0))))

end FlatTriangulation

/-- A genus-2 translation surface in the stratum H(2): three unit squares A,
B, C glued into an L, each triangulated by a diagonal — faces `(1, 8, -5)`,
`(5, -9, -3)`, `(2, 3, -6)`, `(6, -2, -8)`, `(9, 4, -7)`, `(7, -1, -4)` with
horizontal edges 1, 2, 9, vertical edges 3, 4, 8 and diagonals 5, 6, 7.  All
18 half edges meet in a single vertex of total angle 6π (a singularity). -/
def Lsurface : FlatTriangulation ℤ where
  halfEdges := [1, -1, 2, -2, 3, -3, 4, -4, 5, -5, 6, -6, 7, -7, 8, -8, 9, -9]
  nextInFaceMap := fun h =>
    if h = 1 then 8 else if h = 8 then -5 else if h = -5 then 1
    else if h = 5 then -9 else if h = -9 then -3 else if h = -3 then 5
    else if h = 2 then 3 else if h = 3 then -6 else if h = -6 then 2
    else if h = 6 then -2 else if h = -2 then -8 else if h = -8 then 6
    else if h = 9 then 4 else if h = 4 then -7 else if h = -7 then 9
    else if h = 7 then -1 else if h = -1 then -4 else if h = -4 then 7
    else h
  edgeVec := fun k =>
    if k = 1 ∨ k = 2 ∨ k = 9 then ((1 : ℤ), (0 : ℤ))
    else if k = 3 ∨ k = 4 ∨ k = 8 then ((0 : ℤ), (1 : ℤ))
    else ((1 : ℤ), (1 : ℤ))

/-- A point tagged with the identity of the surface object it was created on:
`ImplementationOf<Surface>::identical` compares surfaces by object identity,
which the `sid` tag models. -/
structure SPoint (R : Type) where
  sid : ℕ
  pd : PointData R

/-- The data stored by `ImplementationOf<Segment>`: source and target half
edges, the two endpoints and the vector. -/
structure SegData (R : Type) where
  source : ℤ
  startP : SPoint R
  target : ℤ
  endP : SPoint R
  vec : Vec R

/-- The helpers a `Segment` constructor calls whose implementations are not
among the given sources (`Ray::source()`, `Point` translation along a vector,
`Ray::normalizeSource`).  The error claims hold for every implementation, so
they are universally quantified. -/
structure SegmentCtx (R : Type) where
  raySource : FlatTriangulation R → PointData R → Vec R → ℤ
  translate : FlatTriangulation R → PointData R → Vec R → PointData R × ℤ
  normalizeSource : FlatTriangulation R → PointData R → ℤ → Vec R → ℤ

namespace FlatTriangulation

/-- Modelled from the spec: the total angle of a point in multiples of 2π —
the vertex angle for a vertex point (normal form `b = c = 0`), and 1 for any
interior or edge point. -/
def anglePoint (S : FlatTriangulation R) (p : PointData R) : ℕ :=
  if p.b = 0 ∧ p.c = 0 then angleAt S p.face else 1

/-- The five-argument `Segment` constructor: check that the endpoints live on
the same surface, that each endpoint is in its given face, and that the
vector is nonzero (`std::invalid_argument` otherwise), then normalize the
source and target half edges. -/
def segmentMk5 (ctx : SegmentCtx R) (S : FlatTriangulation R) (startP : SPoint R)
    (source : ℤ) (endP : SPoint R) (target : ℤ) (v : Vec R) :
    Except CppError (SegData R) :=
  if startP.sid ≠ endP.sid then .error .invalidArgument
  else if ¬ (pointIn S startP.pd source = true) then .error .invalidArgument
  else if ¬ (pointIn S endP.pd target = true) then .error .invalidArgument
  else if v = 0 then .error .invalidArgument
  else .ok ⟨ctx.normalizeSource S startP.pd source v, startP,
            ctx.normalizeSource S endP.pd target (-v), endP, v⟩

/-- The `(start, source, vector)` constructor: translate the start point
along the vector to find the end point and its target face, then delegate to
the five-argument constructor. -/
def segmentMkSrc (ctx : SegmentCtx R) (S : FlatTriangulation R) (startP : SPoint R)
    (source : ℤ) (v : Vec R) : Except CppError (SegData R) :=
  segmentMk5 ctx S startP source ⟨startP.sid, (ctx.translate S startP.pd v).1⟩
    (ctx.translate S startP.pd v).2 v

/-- The `(start, vector)` constructor: reject a singular starting point
(total angle not 2π) with `std::invalid_argument`, then delegate via
`Ray::source()`. -/
def segmentMk2 (ctx : SegmentCtx R) (S : FlatTriangulation R) (startP : SPoint R)
    (v : Vec R) : Except CppError (SegData R) :=
  if anglePoint S startP.pd ≠ 1 then .error .invalidArgument
  else segmentMkSrc ctx S startP (ctx.raySource S startP.pd v) v

/-- `Segment::operator-`: swap the endpoints and negate the vector. -/
def segNeg (s : SegData R) : SegData R :=
  ⟨s.target, s.endP, s.source, s.startP, -s.vec⟩

/-- The tail of the two-point constructor once the starting point is known
not to be singular: if the endpoint is singular, retrace the ray from the
start; otherwise call the five-argument constructor with both ray sources. -/
def segmentMk3Core (ctx : SegmentCtx R) (S : FlatTriangulation R)
    (startP endP : SPoint R) (v : Vec R) : Except CppError (SegData R) :=
  if 1 < anglePoint S endP.pd then
    segmentMkSrc ctx S startP (ctx.raySource S startP.pd v) v
  else
    segmentMk5 ctx S startP (ctx.raySource S startP.pd v) endP
      (ctx.raySource S endP.pd (-v)) v

/-- The `(start, end, vector)` constructor: check the two points live on the
same surface; if the start is singular, check the end is not also a singular
vertex (`std::invalid_argument` otherwise) and retrace the reversed segment
from the end; otherwise proceed with `segmentMk3Core`. -/
def segmentMk3 (ctx : SegmentCtx R) (S : FlatTriangulation R)
    (startP endP : SPoint R) (v : Vec R) : Except CppError (SegData R) :=
  if startP.sid ≠ endP.sid then .error .invalidArgument
  else if 1 < anglePoint S startP.pd then
    if (endP.pd.b = 0 ∧ endP.pd.c = 0) ∧ anglePoint S endP.pd ≠ 1 then
      .error .invalidArgument
    else Except.map segNeg (segmentMk3Core ctx S endP startP (-v))
  else segmentMk3Core ctx S startP endP v

/-- A concrete instantiation of the unknown segment helpers, used to witness
the universally quantified claim at concrete inputs. -/
def plainSegCtx : SegmentCtx R where
  raySource := fun _ p _ => p.face
  translate := fun _ p _ => (p, p.face)
  normalizeSource := fun _ _ source _ => source

end FlatTriangulation

/-! ### Lemmas: exact vector algebra -/

theorem cross_comm_neg (v w : Vec R) : cross v w = -cross w v := by
  simp only [cross]; ring

theorem cross_self (v : Vec R) : cross v v = 0 := by
  simp only [cross]; ring

theorem cross_neg_left (v w : Vec R) : cross (-v) w = -cross v w := by
  simp only [cross, Vec.x, Vec.y, Prod.fst_neg, Prod.snd_neg]; ring

theorem cross_neg_right (v w : Vec R) : cross v (-w) = -cross v w := by
  simp only [cross, Vec.x, Vec.y, Prod.fst_neg, Prod.snd_neg]; ring

theorem cross_add_left (u v w : Vec R) : cross (u + v) w = cross u w + cross v w := by
  simp only [cross, Vec.x, Vec.y, Prod.fst_add, Prod.snd_add]; ring

theorem cross_add_right (u v w : Vec R) : cross u (v + w) = cross u v + cross u w := by
  simp only [cross, Vec.x, Vec.y, Prod.fst_add, Prod.snd_add]; ring

theorem ccw_eq_counterclockwise_iff {v w : Vec R} :
    ccw v w = .COUNTERCLOCKWISE ↔ 0 < cross v w := by
  unfold ccw; split_ifs with h1 h2 <;> simp_all

theorem ccw_eq_clockwise_iff {v w : Vec R} :
    ccw v w = .CLOCKWISE ↔ cross v w < 0 := by
  unfold ccw; split_ifs with h1 h2 <;> simp_all <;> linarith

theorem ccw_eq_collinear_iff {v w : Vec R} :
    ccw v w = .COLLINEAR ↔ cross v w = 0 := by
  unfold ccw; split_ifs with h1 h2
  · simp only [reduceCtorEq, false_iff]; exact h1.ne'
  · simp only [reduceCtorEq, false_iff]; exact h2.ne
  · simp only [true_iff]; exact le_antisymm (not_lt.1 h1) (not_lt.1 h2)

namespace FlatTriangulation

/-! ### Lemmas: the vector map is odd, and setVec acts as expected -/

theorem fromHalfEdge_neg (S : FlatTriangulation R) {h : ℤ} (hh : h ≠ 0) :
    S.fromHalfEdge (-h) = -(S.fromHalfEdge h) := by
  rcases lt_trichotomy h 0 with hlt | rfl | hgt
  · simp [fromHalfEdge, hlt, not_lt.2 hlt.le, neg_pos.2 hlt]
  · exact absurd rfl hh
  · have : ¬(0 : ℤ) < -h := by omega
    simp [fromHalfEdge, hgt, this]

theorem fromHalfEdge_setVec_self (S : FlatTriangulation R) {e : ℤ} (he : e ≠ 0) (v : Vec R) :
    (S.setVec e v).fromHalfEdge e = v := by
  rcases lt_trichotomy e 0 with hlt | rfl | hgt
  · simp [setVec, fromHalfEdge, not_lt.2 hlt.le, hlt.ne]
  · exact absurd rfl he
  · simp [setVec, fromHalfEdge, hgt, not_lt.2 hgt.le]

theorem fromHalfEdge_setVec_neg_self (S : FlatTriangulation R) {e : ℤ} (he : e ≠ 0) (v : Vec R) :
    (S.setVec e v).fromHalfEdge (-e) = -v := by
  rcases lt_trichotomy e 0 with hlt | rfl | hgt
  · have h1 : (0 : ℤ) < -e := by omega
    simp [setVec, fromHalfEdge, not_lt.2 hlt.le, h1]
  · exact absurd rfl he
  · have h1 : ¬(0 : ℤ) < -e := by omega
    have h2 : (-e) ≠ e := by omega
    simp [setVec, fromHalfEdge, hgt, h1, h2]

theorem fromHalfEdge_setVec_other (S : FlatTriangulation R) {e h : ℤ} (v : Vec R)
    (h1 : h ≠ e) (h2 : h ≠ -e) : (S.setVec e v).fromHalfEdge h = S.fromHalfEdge h := by
  by_cases hgt : 0 < h <;> by_cases hegt : 0 < e <;>
    simp [setVec, fromHalfEdge, hgt, hegt, h1, h2, show -h ≠ e by omega, show -h ≠ -e by omega]

theorem nextInFaceMap_flipComb (S : FlatTriangulation R) (e h : ℤ) :
    (S.flipComb e).nextInFaceMap h =
      (let a := S.nextInFaceMap e
       let b := S.nextInFaceMap a
       let c := S.nextInFaceMap (-e)
       let d := S.nextInFaceMap c
       if h = e then d else if h = d then a else if h = a then e
       else if h = -e then b else if h = b then c else if h = c then -e
       else S.nextInFaceMap h) := rfl

theorem halfEdges_flipComb (S : FlatTriangulation R) (e : ℤ) :
    (S.flipComb e).halfEdges = S.halfEdges := rfl

theorem fromHalfEdge_flipComb (S : FlatTriangulation R) (e h : ℤ) :
    (S.flipComb e).fromHalfEdge h =
      (S.setVec e (S.fromHalfEdge (-(S.nextInFaceMap (S.nextInFaceMap (-e)))) +
        S.fromHalfEdge (-(S.nextInFaceMap e)))).fromHalfEdge h := rfl

/-! ### Lemmas: unfolding check and convex -/

theorem check_iff (S : FlatTriangulation R) :
    check S = true ↔ ∀ h ∈ S.halfEdges,
      S.fromHalfEdge h ≠ 0 ∧
      S.fromHalfEdge h + S.fromHalfEdge (S.nextInFaceMap h) +
        S.fromHalfEdge (S.nextInFaceMap (S.nextInFaceMap h)) = 0 ∧
      0 < cross (S.fromHalfEdge h) (S.fromHalfEdge (S.nextInFaceMap h)) := by
  simp only [check, Bool.and_eq_true, List.all_eq_true, decide_eq_true_eq, nextInFace]
  constructor
  · rintro ⟨h1, h2⟩ h hh
    obtain ⟨hnz, hsum⟩ := h1 h hh
    obtain ⟨-, hccw⟩ := h2 h hh
    exact ⟨hnz, hsum, ccw_eq_counterclockwise_iff.1 hccw⟩
  · intro hall
    refine ⟨fun h hh => ⟨(hall h hh).1, (hall h hh).2.1⟩, fun h hh => ?_⟩
    have := (hall h hh).2.2
    refine ⟨?_, ccw_eq_counterclockwise_iff.2 this⟩
    intro h0
    rw [ccw_eq_collinear_iff] at h0
    rw [h0] at this
    exact lt_irrefl 0 this

theorem convex_strict_iff (S : FlatTriangulation R) (e : ℤ) :
    convex S e true = true ↔
      0 < cross (S.fromHalfEdge (S.nextInFaceMap (-e)))
          (S.fromHalfEdge (-(S.nextInFaceMap (S.nextInFaceMap e)))) ∧
      0 < cross (S.fromHalfEdge (S.nextInFaceMap e))
          (S.fromHalfEdge (-(S.nextInFaceMap (S.nextInFaceMap (-e))))) := by
  simp only [convex, if_true, Bool.and_eq_true, decide_eq_true_eq, previousAtVertex,
    nextAtVertex, previousInFace, neg_neg, ccw_eq_counterclockwise_iff]

/-! ### The geometry of a strictly convex flippable edge

For a valid surface and a strictly convex half edge `e`, let `(e, a, b)` and
`(-e, c, d)` be the two adjacent faces.  `FlipFacts` collects everything the
flip analysis needs: the face cycle equations, memberships, pairwise
distinctness of the six involved half edges, the closure equations, and the
strict positivity of the relevant cross products. -/

structure FlipFacts (S : FlatTriangulation R) (e a b c d : ℤ) : Prop where
  na : S.nextInFaceMap e = a
  nb : S.nextInFaceMap a = b
  nbe : S.nextInFaceMap b = e
  nc : S.nextInFaceMap (-e) = c
  nd : S.nextInFaceMap c = d
  nde : S.nextInFaceMap d = -e
  mem_e : e ∈ S.halfEdges
  mem_ne : -e ∈ S.halfEdges
  mem_a : a ∈ S.halfEdges
  mem_b : b ∈ S.halfEdges
  mem_c : c ∈ S.halfEdges
  mem_d : d ∈ S.halfEdges
  e0 : e ≠ 0
  a0 : a ≠ 0
  b0 : b ≠ 0
  c0 : c ≠ 0
  d0 : d ≠ 0
  closed : ∀ h ∈ S.halfEdges, S.nextInFaceMap h ∈ S.halfEdges
  inj : ∀ h1 ∈ S.halfEdges, ∀ h2 ∈ S.halfEdges,
    S.nextInFaceMap h1 = S.nextInFaceMap h2 → h1 = h2
  closure_e : S.fromHalfEdge e + S.fromHalfEdge a + S.fromHalfEdge b = 0
  closure_ne : -(S.fromHalfEdge e) + S.fromHalfEdge c + S.fromHalfEdge d = 0
  nz_e : S.fromHalfEdge e ≠ 0
  nz_a : S.fromHalfEdge a ≠ 0
  nz_b : S.fromHalfEdge b ≠ 0
  nz_c : S.fromHalfEdge c ≠ 0
  nz_d : S.fromHalfEdge d ≠ 0
  crossEA : 0 < cross (S.fromHalfEdge e) (S.fromHalfEdge a)
  crossAB : 0 < cross (S.fromHalfEdge a) (S.fromHalfEdge b)
  crossBE : 0 < cross (S.fromHalfEdge b) (S.fromHalfEdge e)
  crossNEC : 0 < cross (-(S.fromHalfEdge e)) (S.fromHalfEdge c)
  crossCD : 0 < cross (S.fromHalfEdge c) (S.fromHalfEdge d)
  crossDNE : 0 < cross (S.fromHalfEdge d) (-(S.fromHalfEdge e))
  cvx1 : 0 < cross (S.fromHalfEdge c) (-(S.fromHalfEdge b))
  cvx2 : 0 < cross (S.fromHalfEdge a) (-(S.fromHalfEdge d))
  ae : a ≠ e
  be : b ≠ e
  ab : a ≠ b
  ane : a ≠ -e
  bne : b ≠ -e
  ene : e ≠ -e
  ce : c ≠ e
  de : d ≠ e
  cne : c ≠ -e
  dne : d ≠ -e
  cd : c ≠ d
  ac : a ≠ c
  ad : a ≠ d
  bc : b ≠ c
  bd : b ≠ d

theorem combValid_inj {S : FlatTriangulation R} (hv : CombValid S) :
    ∀ h1 ∈ S.halfEdges, ∀ h2 ∈ S.halfEdges,
      S.nextInFaceMap h1 = S.nextInFaceMap h2 → h1 = h2 := by
  intro h1 m1 h2 m2 heq
  have c1 := (hv h1 m1).2.2.2
  have c2 := (hv h2 m2).2.2.2
  calc h1 = S.nextInFaceMap (S.nextInFaceMap (S.nextInFaceMap h1)) := c1.symm
    _ = S.nextInFaceMap (S.nextInFaceMap (S.nextInFaceMap h2)) := by rw [heq]
    _ = h2 := c2

theorem vec_zero_of_comps {v : Vec R} (h1 : v.1 = 0) (h2 : v.2 = 0) : v = 0 :=
  Prod.ext h1 h2

theorem mkFlipFacts {S : FlatTriangulation R} {e : ℤ} (hv : CombValid S)
    (hc : check S = true) (he : e ∈ S.halfEdges) (hcx : convex S e true = true) :
    FlipFacts S e (S.nextInFaceMap e) (S.nextInFaceMap (S.nextInFaceMap e))
      (S.nextInFaceMap (-e)) (S.nextInFaceMap (S.nextInFaceMap (-e))) := by
  -- memberships and the cycle structure
  have e0 : e ≠ 0 := (hv e he).1
  have mem_ne : -e ∈ S.halfEdges := (hv e he).2.1
  have mem_a : S.nextInFaceMap e ∈ S.halfEdges := (hv e he).2.2.1
  have mem_b : S.nextInFaceMap (S.nextInFaceMap e) ∈ S.halfEdges := (hv _ mem_a).2.2.1
  have mem_c : S.nextInFaceMap (-e) ∈ S.halfEdges := (hv _ mem_ne).2.2.1
  have mem_d : S.nextInFaceMap (S.nextInFaceMap (-e)) ∈ S.halfEdges := (hv _ mem_c).2.2.1
  have nbe : S.nextInFaceMap (S.nextInFaceMap (S.nextInFaceMap e)) = e := (hv e he).2.2.2
  have nde : S.nextInFaceMap (S.nextInFaceMap (S.nextInFaceMap (-e))) = -e :=
    (hv _ mem_ne).2.2.2
  have inj := combValid_inj hv
  -- geometric facts from check
  have hck := (check_iff S).1 hc
  have odd : ∀ h : ℤ, h ∈ S.halfEdges → S.fromHalfEdge (-h) = -(S.fromHalfEdge h) :=
    fun h hh => S.fromHalfEdge_neg (hv h hh).1
  obtain ⟨nzE, cloE, crEA⟩ := hck e he
  obtain ⟨nzA, cloA, crAB⟩ := hck _ mem_a
  obtain ⟨nzB, cloB, crBE'⟩ := hck _ mem_b
  obtain ⟨nzNE, cloNE, crNEC⟩ := hck _ mem_ne
  obtain ⟨nzC, cloC, crCD⟩ := hck _ mem_c
  obtain ⟨nzD, cloD, crDNE'⟩ := hck _ mem_d
  rw [nbe] at crBE'
  rw [nde] at crDNE'
  rw [odd e he] at cloNE crDNE' crNEC
  -- convexity
  rw [convex_strict_iff] at hcx
  obtain ⟨cvx1', cvx2'⟩ := hcx
  rw [odd _ mem_b] at cvx1'
  rw [odd _ mem_d] at cvx2'
  -- distinctness, one pair at a time
  have ae : S.nextInFaceMap e ≠ e := by
    intro h
    apply nzE
    have hb : S.nextInFaceMap (S.nextInFaceMap e) = e := by rw [h, h]
    have h3 : S.fromHalfEdge e + S.fromHalfEdge e + S.fromHalfEdge e = 0 := by
      have h4 := cloE; rw [hb, h] at h4; exact h4
    have c1 := congrArg Prod.fst h3
    have c2 := congrArg Prod.snd h3
    simp only [Prod.fst_add, Prod.snd_add, Prod.fst_zero, Prod.snd_zero] at c1 c2
    exact vec_zero_of_comps (by linarith) (by linarith)
  have be : S.nextInFaceMap (S.nextInFaceMap e) ≠ e := by
    intro h
    exact ae ((congrArg S.nextInFaceMap h).symm.trans nbe)
  have ab : S.nextInFaceMap e ≠ S.nextInFaceMap (S.nextInFaceMap e) := by
    intro h
    exact ae (inj e he _ mem_a h).symm
  have ane : S.nextInFaceMap e ≠ -e := by
    intro h
    apply nzB
    have hva : S.fromHalfEdge (S.nextInFaceMap e) = -(S.fromHalfEdge e) := by
      rw [h]; exact odd e he
    have h3 := cloE
    rw [hva] at h3
    have c1 := congrArg Prod.fst h3
    have c2 := congrArg Prod.snd h3
    simp only [Prod.fst_add, Prod.snd_add, Prod.fst_neg, Prod.snd_neg, Prod.fst_zero,
      Prod.snd_zero] at c1 c2
    exact vec_zero_of_comps (by linarith) (by linarith)
  have bne : S.nextInFaceMap (S.nextInFaceMap e) ≠ -e := by
    intro h
    apply nzA
    have hvb : S.fromHalfEdge (S.nextInFaceMap (S.nextInFaceMap e)) = -(S.fromHalfEdge e) := by
      rw [h]; exact odd e he
    have h3 := cloE
    rw [hvb] at h3
    have c1 := congrArg Prod.fst h3
    have c2 := congrArg Prod.snd h3
    simp only [Prod.fst_add, Prod.snd_add, Prod.fst_neg, Prod.snd_neg, Prod.fst_zero,
      Prod.snd_zero] at c1 c2
    exact vec_zero_of_comps (by linarith) (by linarith)
  have ene : e ≠ -e := by omega
  have ce : S.nextInFaceMap (-e) ≠ e := by
    intro h
    exact bne (inj _ mem_b (-e) mem_ne (nbe.trans h.symm))
  have cne : S.nextInFaceMap (-e) ≠ -e := by
    intro h
    apply nzE
    have hd : S.nextInFaceMap (S.nextInFaceMap (-e)) = -e := by rw [h, h]
    have hvc : S.fromHalfEdge (S.nextInFaceMap (-e)) = -(S.fromHalfEdge e) := by
      rw [h]; exact odd e he
    have hvd : S.fromHalfEdge (S.nextInFaceMap (S.nextInFaceMap (-e))) = -(S.fromHalfEdge e) := by
      rw [hd]; exact odd e he
    have h3 := cloNE
    rw [hvc, hvd] at h3
    have c1 := congrArg Prod.fst h3
    have c2 := congrArg Prod.snd h3
    simp only [Prod.fst_add, Prod.snd_add, Prod.fst_neg, Prod.snd_neg, Prod.fst_zero,
      Prod.snd_zero] at c1 c2
    exact vec_zero_of_comps (by linarith) (by linarith)
  have de : S.nextInFaceMap (S.nextInFaceMap (-e)) ≠ e := by
    intro h
    have q1 : S.nextInFaceMap (-e) = S.nextInFaceMap (S.nextInFaceMap e) :=
      inj _ mem_c _ mem_b (h.trans nbe.symm)
    have q2 : -e = S.nextInFaceMap e := inj (-e) mem_ne _ mem_a q1
    exact ane q2.symm
  have dne : S.nextInFaceMap (S.nextInFaceMap (-e)) ≠ -e := by
    intro h
    exact cne ((congrArg S.nextInFaceMap h).symm.trans nde)
  have cd : S.nextInFaceMap (-e) ≠ S.nextInFaceMap (S.nextInFaceMap (-e)) := by
    intro h
    exact cne (inj (-e) mem_ne _ mem_c h).symm
  have ac : S.nextInFaceMap e ≠ S.nextInFaceMap (-e) := by
    intro h
    exact ene (inj e he (-e) mem_ne h)
  have ad : S.nextInFaceMap e ≠ S.nextInFaceMap (S.nextInFaceMap (-e)) := by
    intro h
    exact ce (inj e he _ mem_c h).symm
  have bc : S.nextInFaceMap (S.nextInFaceMap e) ≠ S.nextInFaceMap (-e) := by
    intro h
    exact ane (inj _ mem_a (-e) mem_ne h)
  have bd : S.nextInFaceMap (S.nextInFaceMap e) ≠
      S.nextInFaceMap (S.nextInFaceMap (-e)) := by
    intro h
    exact ac (inj _ mem_a _ mem_c h)
  exact ⟨rfl, rfl, nbe, rfl, rfl, nde, he, mem_ne, mem_a, mem_b, mem_c, mem_d, e0,
    (hv _ mem_a).1, (hv _ mem_b).1, (hv _ mem_c).1, (hv _ mem_d).1,
    fun h hh => (hv h hh).2.2.1, inj,
    cloE, cloNE, nzE, nzA, nzB, nzC, nzD, crEA, crAB, crBE', crNEC, crCD, crDNE',
    cvx1', cvx2', ae, be, ab, ane, bne, ene, ce, de, cne, dne, cd, ac, ad, bc, bd⟩

/-! ### Evaluating the flip on a convex edge -/

variable {S : FlatTriangulation R} {e a b c d : ℤ}

theorem FlipFacts.next_eval (ff : FlipFacts S e a b c d) (h : ℤ) :
    (S.flipComb e).nextInFaceMap h =
      (if h = e then d else if h = d then a else if h = a then e
       else if h = -e then b else if h = b then c else if h = c then -e
       else S.nextInFaceMap h) := by
  have base : (S.flipComb e).nextInFaceMap h =
      (if h = e then S.nextInFaceMap (S.nextInFaceMap (-e))
       else if h = S.nextInFaceMap (S.nextInFaceMap (-e)) then S.nextInFaceMap e
       else if h = S.nextInFaceMap e then e
       else if h = -e then S.nextInFaceMap (S.nextInFaceMap e)
       else if h = S.nextInFaceMap (S.nextInFaceMap e) then S.nextInFaceMap (-e)
       else if h = S.nextInFaceMap (-e) then -e
       else S.nextInFaceMap h) := rfl
  rw [base, ff.nc, ff.nd, ff.na, ff.nb]

theorem FlipFacts.vec_self (ff : FlipFacts S e a b c d) :
    (S.flipComb e).fromHalfEdge e = -(S.fromHalfEdge d) + -(S.fromHalfEdge a) := by
  have base : (S.flipComb e).fromHalfEdge e =
      (S.setVec e (S.fromHalfEdge (-(S.nextInFaceMap (S.nextInFaceMap (-e)))) +
        S.fromHalfEdge (-(S.nextInFaceMap e)))).fromHalfEdge e := rfl
  rw [base, ff.nc, ff.nd, ff.na, S.fromHalfEdge_setVec_self ff.e0,
    S.fromHalfEdge_neg ff.d0, S.fromHalfEdge_neg ff.a0]

theorem FlipFacts.vec_negself (ff : FlipFacts S e a b c d) :
    (S.flipComb e).fromHalfEdge (-e) = S.fromHalfEdge d + S.fromHalfEdge a := by
  have base : (S.flipComb e).fromHalfEdge (-e) =
      (S.setVec e (S.fromHalfEdge (-(S.nextInFaceMap (S.nextInFaceMap (-e)))) +
        S.fromHalfEdge (-(S.nextInFaceMap e)))).fromHalfEdge (-e) := rfl
  rw [base, ff.nc, ff.nd, ff.na, S.fromHalfEdge_setVec_neg_self ff.e0,
    S.fromHalfEdge_neg ff.d0, S.fromHalfEdge_neg ff.a0]
  abel

theorem flipComb_vec_other {h : ℤ} (h1 : h ≠ e) (h2 : h ≠ -e) :
    (S.flipComb e).fromHalfEdge h = S.fromHalfEdge h := by
  have base : (S.flipComb e).fromHalfEdge h =
      (S.setVec e (S.fromHalfEdge (-(S.nextInFaceMap (S.nextInFaceMap (-e)))) +
        S.fromHalfEdge (-(S.nextInFaceMap e)))).fromHalfEdge h := rfl
  rw [base, S.fromHalfEdge_setVec_other _ h1 h2]

/-- Pointwise evaluation of the flipped face permutation on the six half
edges of the two affected faces, and outside of them. -/
theorem FlipFacts.ne1 (ff : FlipFacts S e a b c d) :
    (S.flipComb e).nextInFaceMap e = d := by
  rw [ff.next_eval]; simp

theorem FlipFacts.ne2 (ff : FlipFacts S e a b c d) :
    (S.flipComb e).nextInFaceMap d = a := by
  rw [ff.next_eval]; simp [ff.de]

theorem FlipFacts.ne3 (ff : FlipFacts S e a b c d) :
    (S.flipComb e).nextInFaceMap a = e := by
  rw [ff.next_eval]; simp [ff.ae, ff.ad]

theorem FlipFacts.ne4 (ff : FlipFacts S e a b c d) :
    (S.flipComb e).nextInFaceMap (-e) = b := by
  rw [ff.next_eval]; simp [Ne.symm ff.ene, Ne.symm ff.dne, Ne.symm ff.ane]

theorem FlipFacts.ne5 (ff : FlipFacts S e a b c d) :
    (S.flipComb e).nextInFaceMap b = c := by
  rw [ff.next_eval]; simp [ff.be, ff.bd, Ne.symm ff.ab, ff.bne]

theorem FlipFacts.ne6 (ff : FlipFacts S e a b c d) :
    (S.flipComb e).nextInFaceMap c = -e := by
  rw [ff.next_eval]; simp [ff.ce, ff.cd, Ne.symm ff.ac, ff.cne, Ne.symm ff.bc]

theorem FlipFacts.ne7 (ff : FlipFacts S e a b c d) {h : ℤ}
    (h1 : h ≠ e) (h2 : h ≠ d) (h3 : h ≠ a) (h4 : h ≠ -e) (h5 : h ≠ b) (h6 : h ≠ c) :
    (S.flipComb e).nextInFaceMap h = S.nextInFaceMap h := by
  rw [ff.next_eval]; simp [h1, h2, h3, h4, h5, h6]

/-- For a half edge outside the two flipped faces, its face neighbours are
also outside them. -/
theorem FlipFacts.next_ne_six (ff : FlipFacts S e a b c d) {h : ℤ}
    (hh : h ∈ S.halfEdges) (h1 : h ≠ e) (h2 : h ≠ d) (h3 : h ≠ a) (h4 : h ≠ -e)
    (h5 : h ≠ b) (h6 : h ≠ c) :
    S.nextInFaceMap h ≠ e ∧ S.nextInFaceMap h ≠ d ∧ S.nextInFaceMap h ≠ a ∧
    S.nextInFaceMap h ≠ -e ∧ S.nextInFaceMap h ≠ b ∧ S.nextInFaceMap h ≠ c := by
  refine ⟨fun q => h5 ?_, fun q => h6 ?_, fun q => h1 ?_, fun q => h2 ?_,
    fun q => h3 ?_, fun q => h4 ?_⟩
  · exact ff.inj h hh b ff.mem_b (q.trans ff.nbe.symm)
  · exact ff.inj h hh c ff.mem_c (q.trans ff.nd.symm)
  · exact ff.inj h hh e ff.mem_e (q.trans ff.na.symm)
  · exact ff.inj h hh d ff.mem_d (q.trans ff.nde.symm)
  · exact ff.inj h hh a ff.mem_a (q.trans ff.nb.symm)
  · exact ff.inj h hh (-e) ff.mem_ne (q.trans ff.nc.symm)

theorem FlipFacts.combValid_flipComb (ff : FlipFacts S e a b c d)
    (hv : CombValid S) : CombValid (S.flipComb e) := by
  intro h hh
  rw [halfEdges_flipComb] at hh
  obtain ⟨h0, hneg, -, -⟩ := hv h hh
  refine ⟨h0, ?_, ?_, ?_⟩
  · rw [halfEdges_flipComb]; exact hneg
  · rw [halfEdges_flipComb, ff.next_eval]
    split_ifs with q1 q2 q3 q4 q5 q6
    · exact ff.mem_d
    · exact ff.mem_a
    · exact ff.mem_e
    · exact ff.mem_b
    · exact ff.mem_c
    · exact ff.mem_ne
    · exact ff.closed h hh
  · by_cases q1 : h = e
    · subst q1; rw [ff.ne1, ff.ne2, ff.ne3]
    · by_cases q2 : h = d
      · subst q2; rw [ff.ne2, ff.ne3, ff.ne1]
      · by_cases q3 : h = a
        · subst q3; rw [ff.ne3, ff.ne1, ff.ne2]
        · by_cases q4 : h = -e
          · subst q4; rw [ff.ne4, ff.ne5, ff.ne6]
          · by_cases q5 : h = b
            · subst q5; rw [ff.ne5, ff.ne6, ff.ne4]
            · by_cases q6 : h = c
              · subst q6; rw [ff.ne6, ff.ne4, ff.ne5]
              · obtain ⟨p1, p2, p3, p4, p5, p6⟩ := ff.next_ne_six hh q1 q2 q3 q4 q5 q6
                have hnh : S.nextInFaceMap h ∈ S.halfEdges := ff.closed h hh
                obtain ⟨r1, r2, r3, r4, r5, r6⟩ := ff.next_ne_six hnh p1 p2 p3 p4 p5 p6
                rw [ff.ne7 q1 q2 q3 q4 q5 q6, ff.ne7 p1 p2 p3 p4 p5 p6,
                  ff.ne7 r1 r2 r3 r4 r5 r6]
                exact (hv h hh).2.2.2

theorem cross_zero_left (w : Vec R) : cross 0 w = 0 := by
  simp only [cross, Vec.x, Vec.y, Prod.fst_zero, Prod.snd_zero]; ring

/-- After flipping a strictly convex edge of a valid surface, the two new
faces `(e, d, a)` and `(-e, b, c)` again satisfy all the facts of a valid
strictly convex configuration.  This is the inductive heart of the flip
analysis: closure of the new faces is the parallelogram law, and their
positive orientation follows from the convexity of the flipped
quadrilateral. -/
theorem FlipFacts.step (ff : FlipFacts S e a b c d) (hv : CombValid S) :
    FlipFacts (S.flipComb e) e d a b c := by
  have hW := ff.vec_self
  have vd' := flipComb_vec_other (S := S) (e := e) ff.de ff.dne
  have va' := flipComb_vec_other (S := S) (e := e) ff.ae ff.ane
  have vb' := flipComb_vec_other (S := S) (e := e) ff.be ff.bne
  have vc' := flipComb_vec_other (S := S) (e := e) ff.ce ff.cne
  have hnW : -((S.flipComb e).fromHalfEdge e) = S.fromHalfEdge d + S.fromHalfEdge a := by
    rw [hW]; abel
  have hsum : S.fromHalfEdge a + S.fromHalfEdge b + S.fromHalfEdge c +
      S.fromHalfEdge d = 0 := by
    have h1 := ff.closure_e
    have h2 := ff.closure_ne
    calc S.fromHalfEdge a + S.fromHalfEdge b + S.fromHalfEdge c + S.fromHalfEdge d
        = (S.fromHalfEdge e + S.fromHalfEdge a + S.fromHalfEdge b) +
          (-(S.fromHalfEdge e) + S.fromHalfEdge c + S.fromHalfEdge d) := by abel
      _ = 0 := by rw [h1, h2]; abel
  have hda : S.fromHalfEdge d + S.fromHalfEdge a =
      -(S.fromHalfEdge b) + -(S.fromHalfEdge c) := by
    calc S.fromHalfEdge d + S.fromHalfEdge a
        = (S.fromHalfEdge a + S.fromHalfEdge b + S.fromHalfEdge c + S.fromHalfEdge d) +
          (-(S.fromHalfEdge b) + -(S.fromHalfEdge c)) := by abel
      _ = -(S.fromHalfEdge b) + -(S.fromHalfEdge c) := by rw [hsum]; abel
  have hvx2 := ff.cvx2
  rw [cross_neg_right] at hvx2
  have hvx1 := ff.cvx1
  rw [cross_neg_right] at hvx1
  have I1 : 0 < cross ((S.flipComb e).fromHalfEdge e) (S.fromHalfEdge d) := by
    rw [hW, cross_add_left, cross_neg_left, cross_neg_left, cross_self, neg_zero, zero_add]
    linarith
  have I2 : 0 < cross (S.fromHalfEdge d) (S.fromHalfEdge a) := by
    rw [cross_comm_neg]; linarith
  have I3 : 0 < cross (S.fromHalfEdge a) ((S.flipComb e).fromHalfEdge e) := by
    rw [hW, cross_add_right, cross_neg_right, cross_neg_right, cross_self, neg_zero,
      add_zero]
    linarith
  have I4 : 0 < cross (S.fromHalfEdge d + S.fromHalfEdge a) (S.fromHalfEdge b) := by
    rw [hda, cross_add_left, cross_neg_left, cross_neg_left, cross_self, neg_zero,
      zero_add]
    linarith
  have I5 : 0 < cross (S.fromHalfEdge b) (S.fromHalfEdge c) := by
    rw [cross_comm_neg]; linarith
  have I6 : 0 < cross (S.fromHalfEdge c) (S.fromHalfEdge d + S.fromHalfEdge a) := by
    rw [hda, cross_add_right, cross_neg_right, cross_neg_right, cross_self, neg_zero,
      add_zero]
    linarith
  have Wnz : (S.flipComb e).fromHalfEdge e ≠ 0 := by
    intro h0
    rw [h0, cross_zero_left] at I1
    exact lt_irrefl 0 I1
  have hv' := ff.combValid_flipComb hv
  refine ⟨ff.ne1, ff.ne2, ff.ne3, ff.ne4, ff.ne5, ff.ne6,
    ff.mem_e, ff.mem_ne, ff.mem_d, ff.mem_a, ff.mem_b, ff.mem_c,
    ff.e0, ff.d0, ff.a0, ff.b0, ff.c0,
    fun h hh => (hv' h hh).2.2.1, combValid_inj hv', ?_, ?_,
    Wnz, ?_, ?_, ?_, ?_, ?_, ?_, ?_, ?_, ?_, ?_, ?_, ?_,
    ff.de, ff.ae, fun q => ff.ad q.symm, ff.dne, ff.ane, ff.ene,
    ff.be, ff.ce, ff.bne, ff.cne, ff.bc, fun q => ff.bd q.symm,
    fun q => ff.cd q.symm, ff.ab, ff.ac⟩
  · rw [hW, vd', va']; abel
  · have harr : -(-(S.fromHalfEdge d) + -(S.fromHalfEdge a)) + S.fromHalfEdge b +
        S.fromHalfEdge c = S.fromHalfEdge a + S.fromHalfEdge b + S.fromHalfEdge c +
        S.fromHalfEdge d := by abel
    rw [hW, vb', vc', harr]
    exact hsum
  · rw [vd']; exact ff.nz_d
  · rw [va']; exact ff.nz_a
  · rw [vb']; exact ff.nz_b
  · rw [vc']; exact ff.nz_c
  · rw [vd']; exact I1
  · rw [vd', va']; exact I2
  · rw [va']; exact I3
  · rw [hnW, vb']; exact I4
  · rw [vb', vc']; exact I5
  · rw [vc', hnW]; exact I6
  · rw [vb', va', cross_neg_right, ← cross_comm_neg]; exact ff.crossAB
  · rw [vd', vc', cross_neg_right, ← cross_comm_neg]; exact ff.crossCD

/-- The re-verification of the invariant after flipping a strictly convex
edge of a valid surface always passes. -/
theorem FlipFacts.check_flipComb (ff : FlipFacts S e a b c d) (hv : CombValid S)
    (hc : check S = true) : check (S.flipComb e) = true := by
  have ff' := ff.step hv
  have hck := (check_iff S).1 hc
  have odd' : (S.flipComb e).fromHalfEdge (-e) = -((S.flipComb e).fromHalfEdge e) :=
    (S.flipComb e).fromHalfEdge_neg ff.e0
  rw [check_iff]
  intro h hh
  rw [halfEdges_flipComb] at hh
  by_cases q1 : h = e
  · rw [q1]
    refine ⟨ff'.nz_e, ?_, ?_⟩
    · rw [ff'.na, ff'.nb]; exact ff'.closure_e
    · rw [ff'.na]; exact ff'.crossEA
  · by_cases q2 : h = d
    · rw [q2]
      refine ⟨ff'.nz_a, ?_, ?_⟩
      · rw [ff'.nb, ff'.nbe]
        have h1 := ff'.closure_e
        calc (S.flipComb e).fromHalfEdge d + (S.flipComb e).fromHalfEdge a +
              (S.flipComb e).fromHalfEdge e
            = (S.flipComb e).fromHalfEdge e + (S.flipComb e).fromHalfEdge d +
              (S.flipComb e).fromHalfEdge a := by abel
          _ = 0 := h1
      · rw [ff'.nb]; exact ff'.crossAB
    · by_cases q3 : h = a
      · rw [q3]
        refine ⟨ff'.nz_b, ?_, ?_⟩
        · rw [ff'.nbe, ff'.na]
          have h1 := ff'.closure_e
          calc (S.flipComb e).fromHalfEdge a + (S.flipComb e).fromHalfEdge e +
                (S.flipComb e).fromHalfEdge d
              = (S.flipComb e).fromHalfEdge e + (S.flipComb e).fromHalfEdge d +
                (S.flipComb e).fromHalfEdge a := by abel
            _ = 0 := h1
        · rw [ff'.nbe]; exact ff'.crossBE
      · by_cases q4 : h = -e
        · rw [q4]
          refine ⟨?_, ?_, ?_⟩
          · rw [odd']
            simp only [ne_eq, neg_eq_zero]
            exact ff'.nz_e
          · rw [ff'.nc, ff'.nd, odd']
            exact ff'.closure_ne
          · rw [ff'.nc, odd']
            exact ff'.crossNEC
        · by_cases q5 : h = b
          · rw [q5]
            refine ⟨ff'.nz_c, ?_, ?_⟩
            · rw [ff'.nd, ff'.nde, odd']
              have h1 := ff'.closure_ne
              calc (S.flipComb e).fromHalfEdge b + (S.flipComb e).fromHalfEdge c +
                    -((S.flipComb e).fromHalfEdge e)
                  = -((S.flipComb e).fromHalfEdge e) + (S.flipComb e).fromHalfEdge b +
                    (S.flipComb e).fromHalfEdge c := by abel
                _ = 0 := h1
            · rw [ff'.nd]; exact ff'.crossCD
          · by_cases q6 : h = c
            · rw [q6]
              refine ⟨ff'.nz_d, ?_, ?_⟩
              · rw [ff'.nde, ff'.nc, odd']
                have h1 := ff'.closure_ne
                calc (S.flipComb e).fromHalfEdge c + -((S.flipComb e).fromHalfEdge e) +
                      (S.flipComb e).fromHalfEdge b
                    = -((S.flipComb e).fromHalfEdge e) + (S.flipComb e).fromHalfEdge b +
                      (S.flipComb e).fromHalfEdge c := by abel
                  _ = 0 := h1
              · rw [ff'.nde, odd']; exact ff'.crossDNE
            · obtain ⟨p1, p2, p3, p4, p5, p6⟩ := ff.next_ne_six hh q1 q2 q3 q4 q5 q6
              have hnh : S.nextInFaceMap h ∈ S.halfEdges := ff.closed h hh
              obtain ⟨r1, r2, r3, r4, r5, r6⟩ := ff.next_ne_six hnh p1 p2 p3 p4 p5 p6
              rw [ff.ne7 q1 q2 q3 q4 q5 q6, ff.ne7 p1 p2 p3 p4 p5 p6,
                flipComb_vec_other q1 q4, flipComb_vec_other p1 p4,
                flipComb_vec_other r1 r4]
              exact hck h hh

/-- A `FlipFacts` configuration makes the edge strictly convex. -/
theorem FlipFacts.convexity (ff : FlipFacts S e a b c d) : convex S e true = true := by
  rw [convex_strict_iff]
  constructor
  · rw [ff.nc, ff.na, ff.nb, S.fromHalfEdge_neg ff.b0]
    exact ff.cvx1
  · rw [ff.na, ff.nc, ff.nd, S.fromHalfEdge_neg ff.d0]
    exact ff.cvx2

/-- Flipping a strictly convex edge of a valid surface succeeds and returns
the surface with the flipped combinatorics and the parallelogram vector. -/
theorem FlipFacts.flip_eq_ok (ff : FlipFacts S e a b c d) (hv : CombValid S)
    (hc : check S = true) : flip S e = .ok (S.flipComb e) := by
  simp only [flip]
  rw [if_pos ff.convexity, if_pos (ff.check_flipComb hv hc)]

/-! ### The double flip reverses the flipped half edge -/

theorem eSwap_e (e : ℤ) : eSwap e e = -e := by simp [eSwap]

theorem eSwap_ne (e : ℤ) : eSwap e (-e) = e := by
  by_cases h : e = 0
  · subst h; simp [eSwap]
  · have : -e ≠ e := by omega
    simp [eSwap, this]

theorem eSwap_other {e h : ℤ} (h1 : h ≠ e) (h2 : h ≠ -e) : eSwap e h = h := by
  simp [eSwap, h1, h2]

theorem eSwap_invol (e h : ℤ) : eSwap e (eSwap e h) = h := by
  by_cases h1 : h = e
  · subst h1; rw [eSwap_e, eSwap_ne]
  · by_cases h2 : h = -e
    · subst h2; rw [eSwap_ne, eSwap_e]
    · rw [eSwap_other h1 h2, eSwap_other h1 h2]

theorem eSwap_mem {S : FlatTriangulation R} {e h : ℤ} (hh : h ∈ S.halfEdges)
    (he : e ∈ S.halfEdges) (hne : -e ∈ S.halfEdges) : eSwap e h ∈ S.halfEdges := by
  by_cases h1 : h = e
  · subst h1; rw [eSwap_e]; exact hne
  · by_cases h2 : h = -e
    · subst h2; rw [eSwap_ne]; exact he
    · rw [eSwap_other h1 h2]; exact hh

theorem reverseEdgeLabel_next (S : FlatTriangulation R) (e h : ℤ) :
    (S.reverseEdgeLabel e).nextInFaceMap h = eSwap e (S.nextInFaceMap (eSwap e h)) := rfl

theorem reverseEdgeLabel_halfEdges (S : FlatTriangulation R) (e : ℤ) :
    (S.reverseEdgeLabel e).halfEdges = S.halfEdges := rfl

theorem reverseEdgeLabel_vec (S : FlatTriangulation R) {e : ℤ} (he : e ≠ 0) (h : ℤ) :
    (S.reverseEdgeLabel e).fromHalfEdge h =
      (if h = e then -(S.fromHalfEdge e) else if h = -e then S.fromHalfEdge e
       else S.fromHalfEdge h) := by
  have base : (S.reverseEdgeLabel e).fromHalfEdge h =
      (S.setVec e (-(S.fromHalfEdge e))).fromHalfEdge h := rfl
  by_cases h1 : h = e
  · subst h1
    rw [base, S.fromHalfEdge_setVec_self he, if_pos rfl]
  · by_cases h2 : h = -e
    · subst h2
      rw [base, S.fromHalfEdge_setVec_neg_self he, neg_neg, if_neg h1, if_pos rfl]
    · rw [base, S.fromHalfEdge_setVec_other _ h1 h2, if_neg h1, if_neg h2]

/-- Unfolding of the exact equality test on surfaces. -/
theorem surfEq_iff (S1 S2 : FlatTriangulation R) :
    surfEq S1 S2 = true ↔ S1.halfEdges = S2.halfEdges ∧
      (∀ h ∈ S1.halfEdges, S1.nextInFaceMap h = S2.nextInFaceMap h) ∧
      (∀ h ∈ S1.halfEdges, S1.fromHalfEdge h = S2.fromHalfEdge h) := by
  simp only [surfEq, combEq, Bool.and_eq_true, List.all_eq_true, decide_eq_true_eq]
  tauto

/-- Combinatorially, flipping twice conjugates the face permutation by the
label swap of `e` and `-e`. -/
theorem FlipFacts.double_next (ff : FlipFacts S e a b c d) (hv : CombValid S)
    {h : ℤ} (hh : h ∈ S.halfEdges) :
    ((S.flipComb e).flipComb e).nextInFaceMap h = eSwap e (S.nextInFaceMap (eSwap e h)) := by
  have ff' := ff.step hv
  by_cases q1 : h = e
  · rw [q1, ff'.ne1, eSwap_e, ff.nc, eSwap_other ff.ce ff.cne]
  · by_cases q2 : h = d
    · rw [q2, ff'.ne3, eSwap_other ff.de ff.dne, ff.nde, eSwap_ne]
    · by_cases q3 : h = a
      · rw [q3, ff'.ne5, eSwap_other ff.ae ff.ane, ff.nb, eSwap_other ff.be ff.bne]
      · by_cases q4 : h = -e
        · rw [q4, ff'.ne4, eSwap_ne, ff.na, eSwap_other ff.ae ff.ane]
        · by_cases q5 : h = b
          · rw [q5, ff'.ne6, eSwap_other ff.be ff.bne, ff.nbe, eSwap_e]
          · by_cases q6 : h = c
            · rw [q6, ff'.ne2, eSwap_other ff.ce ff.cne, ff.nd, eSwap_other ff.de ff.dne]
            · obtain ⟨p1, p2, p3, p4, p5, p6⟩ := ff.next_ne_six hh q1 q2 q3 q4 q5 q6
              rw [ff'.ne7 q1 q6 q2 q4 q3 q5, ff.ne7 q1 q2 q3 q4 q5 q6,
                eSwap_other q1 q4, eSwap_other p1 p4]

/-- Flipping twice negates the vector of the flipped half edge and keeps all
other vectors. -/
theorem FlipFacts.double_vec (ff : FlipFacts S e a b c d) (hv : CombValid S) (h : ℤ) :
    ((S.flipComb e).flipComb e).fromHalfEdge h =
      (if h = e then -(S.fromHalfEdge e) else if h = -e then S.fromHalfEdge e
       else S.fromHalfEdge h) := by
  have ff' := ff.step hv
  by_cases h1 : h = e
  · rw [h1, if_pos rfl, ff'.vec_self, flipComb_vec_other ff.ce ff.cne,
      flipComb_vec_other ff.de ff.dne]
    have h2 := ff.closure_ne
    calc -(S.fromHalfEdge c) + -(S.fromHalfEdge d)
        = -(S.fromHalfEdge e) - (-(S.fromHalfEdge e) + S.fromHalfEdge c +
            S.fromHalfEdge d) := by abel
      _ = -(S.fromHalfEdge e) := by rw [h2]; abel
  · by_cases h2 : h = -e
    · subst h2
      rw [if_neg h1, if_pos rfl, ff'.vec_negself, flipComb_vec_other ff.ce ff.cne,
        flipComb_vec_other ff.de ff.dne]
      have h3 := ff.closure_ne
      calc S.fromHalfEdge c + S.fromHalfEdge d
          = S.fromHalfEdge e + (-(S.fromHalfEdge e) + S.fromHalfEdge c +
              S.fromHalfEdge d) := by abel
        _ = S.fromHalfEdge e := by rw [h3]; abel
    · rw [if_neg h1, if_neg h2, flipComb_vec_other h1 h2, flipComb_vec_other h1 h2]

theorem geometricInvariant_of_check {S : FlatTriangulation R} (hc : check S = true) :
    S.GeometricInvariant := by
  intro h hh
  obtain ⟨-, hsum, hcr⟩ := (check_iff S).1 hc h hh
  exact ⟨hsum, ccw_eq_counterclockwise_iff.2 hcr⟩

/-! ### Vertex orbits: nextAtVertex is a permutation of the half edges -/

theorem nav_mem {S : FlatTriangulation R} (hv : CombValid S) {h : ℤ}
    (hh : h ∈ S.halfEdges) : S.nextAtVertex h ∈ S.halfEdges := by
  obtain ⟨-, -, h1, -⟩ := hv h hh
  obtain ⟨-, -, h2, -⟩ := hv _ h1
  obtain ⟨-, h3, -, -⟩ := hv _ h2
  simpa [nextAtVertex, previousInFace] using h3

theorem pav_mem {S : FlatTriangulation R} (hv : CombValid S) {h : ℤ}
    (hh : h ∈ S.halfEdges) : S.previousAtVertex h ∈ S.halfEdges := by
  obtain ⟨-, h1, -, -⟩ := hv h hh
  obtain ⟨-, -, h2, -⟩ := hv _ h1
  simpa [previousAtVertex] using h2

theorem pav_nav {S : FlatTriangulation R} (hv : CombValid S) {h : ℤ}
    (hh : h ∈ S.halfEdges) : S.previousAtVertex (S.nextAtVertex h) = h := by
  simp only [previousAtVertex, nextAtVertex, previousInFace, neg_neg]
  exact (hv h hh).2.2.2

theorem nav_pav {S : FlatTriangulation R} (hv : CombValid S) {h : ℤ}
    (hh : h ∈ S.halfEdges) : S.nextAtVertex (S.previousAtVertex h) = h := by
  have hneg := (hv h hh).2.1
  have h3 := (hv _ hneg).2.2.2
  simp only [nextAtVertex, previousAtVertex, previousInFace]
  rw [h3, neg_neg]

theorem nav_inj {S : FlatTriangulation R} (hv : CombValid S) {a b : ℤ}
    (ha : a ∈ S.halfEdges) (hb : b ∈ S.halfEdges)
    (hab : S.nextAtVertex a = S.nextAtVertex b) : a = b := by
  rw [← pav_nav hv ha, hab, pav_nav hv hb]

theorem navIter_mem {S : FlatTriangulation R} (hv : CombValid S) {h : ℤ}
    (hh : h ∈ S.halfEdges) : ∀ k, S.nextAtVertex^[k] h ∈ S.halfEdges := by
  intro k
  induction k with
  | zero => simpa using hh
  | succ k ih =>
      rw [Function.iterate_succ_apply']
      exact nav_mem hv ih

theorem navIter_inj {S : FlatTriangulation R} (hv : CombValid S) {a b : ℤ}
    (ha : a ∈ S.halfEdges) (hb : b ∈ S.halfEdges) :
    ∀ k, S.nextAtVertex^[k] a = S.nextAtVertex^[k] b → a = b := by
  intro k
  induction k with
  | zero => simp
  | succ k ih =>
      rw [Function.iterate_succ_apply', Function.iterate_succ_apply']
      intro h
      exact ih (nav_inj hv (navIter_mem hv ha k) (navIter_mem hv hb k) h)

theorem nav_period {S : FlatTriangulation R} (hv : CombValid S) {t : ℤ}
    (ht : t ∈ S.halfEdges) :
    ∃ m, 0 < m ∧ m ≤ S.halfEdges.length ∧ S.nextAtVertex^[m] t = t := by
  have hmap : ∀ i : Fin (S.halfEdges.length + 1),
      S.nextAtVertex^[i.1] t ∈ S.halfEdges.toFinset := by
    intro i
    rw [List.mem_toFinset]
    exact navIter_mem hv ht i.1
  have hcard : Fintype.card {x // x ∈ S.halfEdges.toFinset} <
      Fintype.card (Fin (S.halfEdges.length + 1)) := by
    rw [Fintype.card_coe, Fintype.card_fin]
    exact Nat.lt_succ_of_le (List.toFinset_card_le _)
  obtain ⟨i, j, hij, heq⟩ := Fintype.exists_ne_map_eq_of_card_lt
    (fun i : Fin (S.halfEdges.length + 1) =>
      (⟨S.nextAtVertex^[i.1] t, hmap i⟩ : {x // x ∈ S.halfEdges.toFinset})) hcard
  have heq' : S.nextAtVertex^[i.1] t = S.nextAtVertex^[j.1] t := congrArg Subtype.val heq
  suffices h : ∀ a b : ℕ, a < b → b ≤ S.halfEdges.length →
      S.nextAtVertex^[a] t = S.nextAtVertex^[b] t →
      ∃ m, 0 < m ∧ m ≤ S.halfEdges.length ∧ S.nextAtVertex^[m] t = t by
    have hij' : i.1 ≠ j.1 := fun hh => hij (Fin.ext hh)
    rcases lt_or_gt_of_ne hij' with hlt | hgt
    · exact h i.1 j.1 hlt (Nat.lt_succ_iff.1 j.2) heq'
    · exact h j.1 i.1 hgt (Nat.lt_succ_iff.1 i.2) heq'.symm
  intro a b hab hbN heqab
  refine ⟨b - a, Nat.sub_pos_of_lt hab, le_trans (Nat.sub_le _ _) hbN, ?_⟩
  have hkey : S.nextAtVertex^[a] (S.nextAtVertex^[b - a] t) = S.nextAtVertex^[a] t := by
    rw [← Function.iterate_add_apply, show a + (b - a) = b from by omega]
    exact heqab.symm
  exact navIter_inj hv (navIter_mem hv ht _) ht a hkey

theorem navIter_period_mul {S : FlatTriangulation R} {t : ℤ} {m : ℕ}
    (hm : S.nextAtVertex^[m] t = t) : ∀ q, S.nextAtVertex^[m * q] t = t := by
  intro q
  induction q with
  | zero => simp
  | succ q ih => rw [Nat.mul_succ, Function.iterate_add_apply, hm, ih]

theorem mem_atVertexList_iff {S : FlatTriangulation R} (hv : CombValid S) {t : ℤ}
    (ht : t ∈ S.halfEdges) (x : ℤ) :
    x ∈ atVertexList S t ↔ ∃ i, S.nextAtVertex^[i] t = x := by
  obtain ⟨m0, hm0pos, hm0le, hm0⟩ := nav_period hv ht
  have hex : ∃ k, 0 < k ∧ S.nextAtVertex^[k] t = t := ⟨m0, hm0pos, hm0⟩
  obtain ⟨hmpos, hmt⟩ := Nat.find_spec hex
  have hmin : ∀ i, 0 < i → i < Nat.find hex → S.nextAtVertex^[i] t ≠ t := by
    intro i hi him hit
    exact Nat.find_min hex him ⟨hi, hit⟩
  have hmN : Nat.find hex ≤ S.halfEdges.length :=
    le_trans (Nat.find_min' hex ⟨hm0pos, hm0⟩) hm0le
  have hlist : ∀ fuel j, j < Nat.find hex → Nat.find hex - j ≤ fuel →
      atVertexAux S t fuel (S.nextAtVertex^[j] t) =
        (List.range (Nat.find hex - j)).map (fun i => S.nextAtVertex^[i + j] t) := by
    intro fuel
    induction fuel with
    | zero => intro j hj hfuel; omega
    | succ fuel ih =>
        intro j hj hfuel
        rw [atVertexAux]
        have hnext : S.nextAtVertex (S.nextAtVertex^[j] t) = S.nextAtVertex^[j + 1] t :=
          (Function.iterate_succ_apply' _ _ _).symm
        by_cases hj1 : j + 1 = Nat.find hex
        · have hstop : S.nextAtVertex (S.nextAtVertex^[j] t) = t := by
            rw [hnext, hj1, hmt]
          rw [if_pos hstop, show Nat.find hex - j = 1 from by omega]
          rw [show List.range 1 = [0] from rfl, List.map_cons, List.map_nil, zero_add]
        · have hj1m : j + 1 < Nat.find hex := by omega
          have hne : S.nextAtVertex (S.nextAtVertex^[j] t) ≠ t := by
            rw [hnext]
            exact hmin (j + 1) (by omega) hj1m
          rw [if_neg hne, hnext, ih (j + 1) hj1m (by omega),
            show Nat.find hex - j = (Nat.find hex - (j + 1)) + 1 from by omega,
            List.range_succ_eq_map]
          simp only [List.map_cons, List.map_map, zero_add]
          congr 1
          refine List.map_congr_left ?_
          intro i hi
          simp only [Function.comp_apply]
          exact congrArg (fun k => S.nextAtVertex^[k] t) (by omega)
  have hlist0 : atVertexList S t =
      (List.range (Nat.find hex)).map (fun i => S.nextAtVertex^[i] t) := by
    have h0 := hlist S.halfEdges.length 0 hmpos (by omega)
    simp only [Function.iterate_zero, id_eq, Nat.sub_zero, add_zero] at h0
    exact h0
  constructor
  · intro hx
    rw [hlist0] at hx
    simp only [List.mem_map, List.mem_range] at hx
    obtain ⟨i, -, hi⟩ := hx
    exact ⟨i, hi⟩
  · rintro ⟨i, rfl⟩
    rw [hlist0]
    simp only [List.mem_map, List.mem_range]
    refine ⟨i % Nat.find hex, Nat.mod_lt _ hmpos, ?_⟩
    conv_rhs => rw [← Nat.mod_add_div i (Nat.find hex)]
    rw [Function.iterate_add_apply, navIter_period_mul hmt]

theorem mem_of_mem_atVertexList {S : FlatTriangulation R} (hv : CombValid S) {t x : ℤ}
    (ht : t ∈ S.halfEdges) (hx : x ∈ atVertexList S t) : x ∈ S.halfEdges := by
  obtain ⟨i, rfl⟩ := (mem_atVertexList_iff hv ht x).1 hx
  exact navIter_mem hv ht i

theorem atVertexList_symm {S : FlatTriangulation R} (hv : CombValid S) {t x : ℤ}
    (ht : t ∈ S.halfEdges) (hx : x ∈ atVertexList S t) : t ∈ atVertexList S x := by
  obtain ⟨i, rfl⟩ := (mem_atVertexList_iff hv ht x).1 hx
  have hxmem : S.nextAtVertex^[i] t ∈ S.halfEdges := navIter_mem hv ht i
  rw [mem_atVertexList_iff hv hxmem]
  obtain ⟨m, hmpos, -, hmt⟩ := nav_period hv ht
  refine ⟨m - i % m, ?_⟩
  have hr : S.nextAtVertex^[i % m] t = S.nextAtVertex^[i] t := by
    conv_rhs => rw [← Nat.mod_add_div i m]
    rw [Function.iterate_add_apply, navIter_period_mul hmt]
  have hlt : i % m < m := Nat.mod_lt _ hmpos
  rw [← hr, ← Function.iterate_add_apply,
    show m - i % m + i % m = m from by omega]
  exact hmt

theorem self_mem_atVertexList {S : FlatTriangulation R} (hv : CombValid S) {t : ℤ}
    (ht : t ∈ S.halfEdges) : t ∈ atVertexList S t :=
  (mem_atVertexList_iff hv ht t).2 ⟨0, rfl⟩

theorem nav_mem_atVertexList {S : FlatTriangulation R} (hv : CombValid S) {t : ℤ}
    (ht : t ∈ S.halfEdges) : S.nextAtVertex t ∈ atVertexList S t :=
  (mem_atVertexList_iff hv ht _).2 ⟨1, by simp⟩

theorem pav_mem_atVertexList {S : FlatTriangulation R} (hv : CombValid S) {t : ℤ}
    (ht : t ∈ S.halfEdges) : S.previousAtVertex t ∈ atVertexList S t := by
  have hpav : S.previousAtVertex t ∈ S.halfEdges := pav_mem hv ht
  have h1 : t ∈ atVertexList S (S.previousAtVertex t) :=
    (mem_atVertexList_iff hv hpav t).2 ⟨1, by simp [nav_pav hv ht]⟩
  exact atVertexList_symm hv hpav h1

theorem neg_mem_atVertexList_next {S : FlatTriangulation R} (hv : CombValid S) {h : ℤ}
    (hh : h ∈ S.halfEdges) : -h ∈ atVertexList S (S.nextInFaceMap h) := by
  have hnh : S.nextInFaceMap h ∈ S.halfEdges := (hv h hh).2.2.1
  refine (mem_atVertexList_iff hv hnh _).2 ⟨1, ?_⟩
  simp only [Function.iterate_one, nextAtVertex, previousInFace]
  rw [(hv h hh).2.2.2]

theorem atVertexList_trans {S : FlatTriangulation R} (hv : CombValid S) {t x y : ℤ}
    (ht : t ∈ S.halfEdges) (hy : y ∈ S.halfEdges)
    (hxt : x ∈ atVertexList S t) (hxy : x ∈ atVertexList S y) :
    y ∈ atVertexList S t := by
  have hxmem : x ∈ S.halfEdges := mem_of_mem_atVertexList hv ht hxt
  have htx : t ∈ atVertexList S x := atVertexList_symm hv ht hxt
  obtain ⟨a, ha⟩ := (mem_atVertexList_iff hv hxmem t).1 htx
  obtain ⟨b, hb⟩ := (mem_atVertexList_iff hv hy x).1 hxy
  have hab : S.nextAtVertex^[a + b] y = t := by
    rw [Function.iterate_add_apply, hb, ha]
  exact atVertexList_symm hv hy ((mem_atVertexList_iff hv hy t).2 ⟨a + b, hab⟩)

/-! ### Point normalization: explicit computations -/

theorem face_distinct {S : FlatTriangulation R} (hv : CombValid S)
    (hc : check S = true) {f : ℤ} (hf : f ∈ S.halfEdges) :
    f ≠ S.nextInFaceMap f ∧ S.nextInFaceMap f ≠ S.nextInFaceMap (S.nextInFaceMap f) ∧
    f ≠ S.nextInFaceMap (S.nextInFaceMap f) := by
  have hck := (check_iff S).1 hc
  have hnf : S.nextInFaceMap f ∈ S.halfEdges := (hv f hf).2.2.1
  have hn2f : S.nextInFaceMap (S.nextInFaceMap f) ∈ S.halfEdges := (hv _ hnf).2.2.1
  obtain ⟨-, -, hcr1⟩ := hck f hf
  obtain ⟨-, -, hcr2⟩ := hck _ hnf
  obtain ⟨-, -, hcr3⟩ := hck _ hn2f
  have h3 : S.nextInFaceMap (S.nextInFaceMap (S.nextInFaceMap f)) = f := (hv f hf).2.2.2
  refine ⟨?_, ?_, ?_⟩
  · intro h
    rw [← h] at hcr1
    exact lt_irrefl 0 (by simpa [cross_self] using hcr1)
  · intro h
    rw [← h] at hcr2
    exact lt_irrefl 0 (by simpa [cross_self] using hcr2)
  · intro h
    rw [h3, ← h] at hcr3
    exact lt_irrefl 0 (by simpa [cross_self] using hcr3)

theorem not_mem_face_neg {S : FlatTriangulation R} (hv : CombValid S)
    (hc : check S = true) {t : ℤ} (ht : t ∈ S.halfEdges) :
    t ≠ -t ∧ t ≠ S.nextInFaceMap (-t) ∧ t ≠ S.nextInFaceMap (S.nextInFaceMap (-t)) := by
  have ht0 : t ≠ 0 := (hv t ht).1
  have htneg : -t ∈ S.halfEdges := (hv t ht).2.1
  have hck := (check_iff S).1 hc
  obtain ⟨-, hsum, -⟩ := hck (-t) htneg
  have hvneg : S.fromHalfEdge (-t) = -(S.fromHalfEdge t) := S.fromHalfEdge_neg ht0
  have hnn : S.nextInFaceMap (-t) ∈ S.halfEdges := (hv _ htneg).2.2.1
  have hn2n : S.nextInFaceMap (S.nextInFaceMap (-t)) ∈ S.halfEdges := (hv _ hnn).2.2.1
  obtain ⟨hnz1, -, -⟩ := hck _ hnn
  obtain ⟨hnz2, -, -⟩ := hck _ hn2n
  refine ⟨by omega, ?_, ?_⟩
  · intro h
    have e1 : S.fromHalfEdge (S.nextInFaceMap (-t)) = S.fromHalfEdge t := by rw [← h]
    rw [e1, hvneg, neg_add_cancel, zero_add] at hsum
    exact hnz2 hsum
  · intro h
    have e1 : S.fromHalfEdge (S.nextInFaceMap (S.nextInFaceMap (-t))) = S.fromHalfEdge t := by
      rw [← h]
    rw [e1, hvneg, add_comm (-(S.fromHalfEdge t)) (S.fromHalfEdge (S.nextInFaceMap (-t))),
      add_assoc, neg_add_cancel, add_zero] at hsum
    exact hnz1 hsum

theorem normalizeLoop_stop {S : FlatTriangulation R} {p : PointData R}
    (hstop : ¬(p.c ≠ 0 ∨ p.a = 0)) : ∀ fuel, normalizeLoop S fuel p = p := by
  intro fuel
  cases fuel with
  | zero => rfl
  | succ fuel =>
      simp only [normalizeLoop]
      rw [if_neg hstop]

theorem normalizeLoop_rot {S : FlatTriangulation R} {p : PointData R} (fuel : ℕ)
    (hgo : p.c ≠ 0 ∨ p.a = 0) (hne : S.nextInFaceMap p.face ≠ p.face) :
    normalizeLoop S (fuel + 1) p =
      normalizeLoop S fuel ⟨S.nextInFaceMap p.face, p.b, p.c, p.a⟩ := by
  simp only [normalizeLoop]
  rw [if_pos hgo]
  have hr : rotatedTriple S p (S.nextInFace p.face) = (p.b, p.c, p.a) := by
    simp only [rotatedTriple, nextInFace]
    rw [if_neg hne]
    simp
  rw [hr]
  rfl

theorem normalizePoint_of_nonneg {S : FlatTriangulation R} {p : PointData R}
    (hsum : p.a + p.b + p.c ≠ 0) (ha : 0 ≤ p.a) (hb : 0 ≤ p.b) (hc : 0 ≤ p.c) :
    normalizePoint S p = normalizePost S p := by
  have hsum' : 0 < p.a + p.b + p.c :=
    lt_of_le_of_ne (by linarith) (Ne.symm hsum)
  simp only [normalizePoint]
  rw [if_neg hsum, if_neg (by push_neg; exact ⟨ha, hb, hc⟩), if_neg (not_lt.2 hsum'.le)]

theorem mkPoint_pos {S : FlatTriangulation R} {f : ℤ} {x y z : R}
    (hx : 0 < x) (hy : 0 < y) (hz : 0 < z) :
    mkPoint S f x y z = .ok ⟨f, x, y, z⟩ := by
  rw [show mkPoint S f x y z = normalizePoint S ⟨f, x, y, z⟩ from rfl,
    normalizePoint_of_nonneg (show x + y + z ≠ 0 from (by linarith : (0 : R) < x + y + z).ne')
      hx.le hy.le hz.le]
  simp only [normalizePost]
  rw [if_pos ⟨hx, hy, hz⟩]

theorem mkPoint_edge_form {S : FlatTriangulation R} {f : ℤ} {x y : R}
    (hx : 0 < x) (hy : 0 < y) (_hne : S.nextInFaceMap f ≠ f) :
    mkPoint S f x y 0 = .ok ⟨f, x, y, 0⟩ := by
  rw [show mkPoint S f x y 0 = normalizePoint S ⟨f, x, y, 0⟩ from rfl,
    normalizePoint_of_nonneg (show x + y + 0 ≠ 0 from (by linarith : (0 : R) < x + y + 0).ne')
      hx.le hy.le (le_refl 0)]
  simp only [normalizePost]
  rw [if_neg (by rintro ⟨-, -, h⟩; exact lt_irrefl 0 h),
    normalizeLoop_stop (by push_neg; exact ⟨rfl, hx.ne'⟩)]

theorem mkPoint_vertex_form {S : FlatTriangulation R} {f : ℤ} {x : R}
    (hx : 0 < x) :
    mkPoint S f x 0 0 = .ok ⟨f, x, 0, 0⟩ := by
  rw [show mkPoint S f x 0 0 = normalizePoint S ⟨f, x, 0, 0⟩ from rfl,
    normalizePoint_of_nonneg (show x + 0 + 0 ≠ 0 from (by linarith : (0 : R) < x + 0 + 0).ne')
      hx.le (le_refl 0) (le_refl 0)]
  simp only [normalizePost]
  rw [if_neg (by rintro ⟨-, h, -⟩; exact lt_irrefl 0 h),
    normalizeLoop_stop (by push_neg; exact ⟨rfl, hx.ne'⟩)]

theorem mkPoint_normal {S : FlatTriangulation R} (hv : CombValid S) (hck : check S = true)
    {f : ℤ} {a b c : R} (hf : f ∈ S.halfEdges) (hsum : a + b + c ≠ 0)
    (ha : 0 ≤ a) (hb : 0 ≤ b) (hc0 : 0 ≤ c) :
    ∃ p, mkPoint S f a b c = .ok p ∧ PointNormal S p := by
  have hsum' : 0 < a + b + c := lt_of_le_of_ne (by linarith) (Ne.symm hsum)
  obtain ⟨d1, d2, d3⟩ := face_distinct hv hck hf
  have hnf : S.nextInFaceMap f ∈ S.halfEdges := (hv f hf).2.2.1
  have hn2f : S.nextInFaceMap (S.nextInFaceMap f) ∈ S.halfEdges := (hv _ hnf).2.2.1
  rw [show mkPoint S f a b c = normalizePoint S ⟨f, a, b, c⟩ from rfl,
    normalizePoint_of_nonneg hsum ha hb hc0]
  simp only [normalizePost]
  by_cases hall : 0 < a ∧ 0 < b ∧ 0 < c
  · rw [if_pos hall]
    exact ⟨_, rfl, hf, Or.inl hall⟩
  · rw [if_neg hall]
    rcases hc0.lt_or_eq with hc' | hc'
    · rcases ha.lt_or_eq with ha' | ha'
      · rcases hb.lt_or_eq with hb' | hb'
        · exact absurd ⟨ha', hb', hc'⟩ hall
        · rw [show (3 : ℕ) = (1 + 1) + 1 from rfl,
            normalizeLoop_rot (1 + 1) (Or.inl hc'.ne') (Ne.symm d1),
            normalizeLoop_rot 1 (Or.inr hb'.symm) (Ne.symm d2),
            normalizeLoop_stop (by push_neg; exact ⟨hb'.symm, hc'.ne'⟩)]
          exact ⟨_, rfl, hn2f, Or.inr (Or.inl ⟨hc', ha', hb'.symm⟩)⟩
      · rcases hb.lt_or_eq with hb' | hb'
        · rw [show (3 : ℕ) = 2 + 1 from rfl,
            normalizeLoop_rot 2 (Or.inl hc'.ne') (Ne.symm d1),
            normalizeLoop_stop (by push_neg; exact ⟨ha'.symm, hb'.ne'⟩)]
          exact ⟨_, rfl, hnf, Or.inr (Or.inl ⟨hb', hc', ha'.symm⟩)⟩
        · rw [show (3 : ℕ) = (1 + 1) + 1 from rfl,
            normalizeLoop_rot (1 + 1) (Or.inl hc'.ne') (Ne.symm d1),
            normalizeLoop_rot 1 (Or.inr hb'.symm) (Ne.symm d2),
            normalizeLoop_stop (by push_neg; exact ⟨hb'.symm, hc'.ne'⟩)]
          exact ⟨_, rfl, hn2f, Or.inr (Or.inr ⟨hc', ha'.symm, hb'.symm⟩)⟩
    · rcases ha.lt_or_eq with ha' | ha'
      · rw [normalizeLoop_stop (by push_neg; exact ⟨hc'.symm, ha'.ne'⟩)]
        rcases hb.lt_or_eq with hb' | hb'
        · exact ⟨_, rfl, hf, Or.inr (Or.inl ⟨ha', hb', hc'.symm⟩)⟩
        · exact ⟨_, rfl, hf, Or.inr (Or.inr ⟨ha', hb'.symm, hc'.symm⟩)⟩
      · have hb' : 0 < b := by linarith
        rw [show (3 : ℕ) = 2 + 1 from rfl,
          normalizeLoop_rot 2 (Or.inr ha'.symm) (Ne.symm d1),
          normalizeLoop_stop (by push_neg; exact ⟨ha'.symm, hb'.ne'⟩)]
        exact ⟨_, rfl, hnf, Or.inr (Or.inr ⟨hb', hc'.symm, ha'.symm⟩)⟩

/-! ### Round trips through rotated coordinates and normalization -/

theorem mkPoint_rot_pos {S : FlatTriangulation R} {f' g : ℤ} {x y z : R}
    (hv : CombValid S) (hc : check S = true) (hf' : f' ∈ S.halfEdges)
    (hx : 0 < x) (hy : 0 < y) (hz : 0 < z)
    (hg : g = f' ∨ g = S.nextInFaceMap f' ∨ g = S.nextInFaceMap (S.nextInFaceMap f')) :
    ∃ q : PointData R, q.face = f' ∧ 0 < q.a ∧ 0 < q.b ∧ 0 < q.c ∧
      rotatedTriple S ⟨g, x, y, z⟩ f' = (q.a, q.b, q.c) ∧
      mkPoint S f' (rotatedTriple S ⟨g, x, y, z⟩ f').1
        (rotatedTriple S ⟨g, x, y, z⟩ f').2.1
        (rotatedTriple S ⟨g, x, y, z⟩ f').2.2 = .ok q := by
  obtain ⟨d1, d2, d3⟩ := face_distinct hv hc hf'
  have h3 : S.nextInFaceMap (S.nextInFaceMap (S.nextInFaceMap f')) = f' := (hv f' hf').2.2.2
  rcases hg with rfl | hg | hg
  · have hr : rotatedTriple S ⟨g, x, y, z⟩ g = (x, y, z) := by
      simp [rotatedTriple]
    refine ⟨⟨g, x, y, z⟩, rfl, hx, hy, hz, hr, ?_⟩
    rw [hr]
    exact mkPoint_pos hx hy hz
  · have hr : rotatedTriple S ⟨g, x, y, z⟩ f' = (z, x, y) := by
      simp only [rotatedTriple, nextInFace]
      rw [if_neg (by rw [hg]; exact d1), if_neg (by rw [hg]; exact d3)]
    refine ⟨⟨f', z, x, y⟩, rfl, hz, hx, hy, hr, ?_⟩
    rw [hr]
    exact mkPoint_pos hz hx hy
  · have hr : rotatedTriple S ⟨g, x, y, z⟩ f' = (y, z, x) := by
      simp only [rotatedTriple, nextInFace]
      rw [if_neg (by rw [hg]; exact d3), if_pos (by rw [hg, h3])]
    refine ⟨⟨f', y, z, x⟩, rfl, hy, hz, hx, hr, ?_⟩
    rw [hr]
    exact mkPoint_pos hy hz hx

theorem mkPoint_rot_edge {S : FlatTriangulation R} {f' g : ℤ} {x y : R}
    (hv : CombValid S) (hc : check S = true) (hf' : f' ∈ S.halfEdges)
    (hx : 0 < x) (hy : 0 < y)
    (hg : g = f' ∨ g = S.nextInFaceMap f' ∨ g = S.nextInFaceMap (S.nextInFaceMap f')) :
    mkPoint S f' (rotatedTriple S ⟨g, x, y, 0⟩ f').1
      (rotatedTriple S ⟨g, x, y, 0⟩ f').2.1
      (rotatedTriple S ⟨g, x, y, 0⟩ f').2.2 = .ok ⟨g, x, y, 0⟩ := by
  obtain ⟨d1, d2, d3⟩ := face_distinct hv hc hf'
  have h3 : S.nextInFaceMap (S.nextInFaceMap (S.nextInFaceMap f')) = f' := (hv f' hf').2.2.2
  have hnf : S.nextInFaceMap f' ∈ S.halfEdges := (hv f' hf').2.2.1
  obtain ⟨d1', -, -⟩ := face_distinct hv hc hnf
  rcases hg with rfl | rfl | rfl
  · have hr : rotatedTriple S ⟨g, x, y, 0⟩ g = (x, y, 0) := by
      simp [rotatedTriple]
    rw [hr]
    exact mkPoint_edge_form hx hy (Ne.symm d1)
  · have hr : rotatedTriple S ⟨S.nextInFaceMap f', x, y, 0⟩ f' = (0, x, y) := by
      simp only [rotatedTriple, nextInFace]
      rw [if_neg d1, if_neg d3]
    rw [hr,
      show mkPoint S f' 0 x y = normalizePoint S ⟨f', 0, x, y⟩ from rfl,
      normalizePoint_of_nonneg
        (show 0 + x + y ≠ 0 from (by linarith : (0 : R) < 0 + x + y).ne')
        (le_refl 0) hx.le hy.le]
    simp only [normalizePost]
    rw [if_neg (by rintro ⟨h, -, -⟩; exact lt_irrefl 0 h),
      show (3 : ℕ) = 2 + 1 from rfl,
      normalizeLoop_rot 2 (Or.inl hy.ne') (Ne.symm d1),
      normalizeLoop_stop (by push_neg; exact ⟨rfl, hx.ne'⟩)]
  · have hr : rotatedTriple S ⟨S.nextInFaceMap (S.nextInFaceMap f'), x, y, 0⟩ f' =
        (y, 0, x) := by
      simp only [rotatedTriple, nextInFace]
      rw [if_neg d3, if_pos h3.symm]
    rw [hr,
      show mkPoint S f' y 0 x = normalizePoint S ⟨f', y, 0, x⟩ from rfl,
      normalizePoint_of_nonneg
        (show y + 0 + x ≠ 0 from (by linarith : (0 : R) < y + 0 + x).ne')
        hy.le (le_refl 0) hx.le]
    simp only [normalizePost]
    rw [if_neg (by rintro ⟨-, h, -⟩; exact lt_irrefl 0 h),
      show (3 : ℕ) = (1 + 1) + 1 from rfl,
      normalizeLoop_rot (1 + 1) (Or.inl hx.ne') (Ne.symm d1),
      normalizeLoop_rot 1 (Or.inr rfl) (Ne.symm d2),
      normalizeLoop_stop (by push_neg; exact ⟨rfl, hx.ne'⟩)]

theorem mkPoint_rot_vertex {S : FlatTriangulation R} {f' g : ℤ} {x : R}
    (hv : CombValid S) (hc : check S = true) (hf' : f' ∈ S.halfEdges)
    (hx : 0 < x)
    (hg : g = f' ∨ g = S.nextInFaceMap f' ∨ g = S.nextInFaceMap (S.nextInFaceMap f')) :
    mkPoint S f' (rotatedTriple S ⟨g, x, 0, 0⟩ f').1
      (rotatedTriple S ⟨g, x, 0, 0⟩ f').2.1
      (rotatedTriple S ⟨g, x, 0, 0⟩ f').2.2 = .ok ⟨g, x, 0, 0⟩ := by
  obtain ⟨d1, d2, d3⟩ := face_distinct hv hc hf'
  have h3 : S.nextInFaceMap (S.nextInFaceMap (S.nextInFaceMap f')) = f' := (hv f' hf').2.2.2
  rcases hg with rfl | rfl | rfl
  · have hr : rotatedTriple S ⟨g, x, 0, 0⟩ g = (x, 0, 0) := by
      simp [rotatedTriple]
    rw [hr]
    exact mkPoint_vertex_form hx
  · have hr : rotatedTriple S ⟨S.nextInFaceMap f', x, 0, 0⟩ f' = (0, x, 0) := by
      simp only [rotatedTriple, nextInFace]
      rw [if_neg d1, if_neg d3]
    rw [hr,
      show mkPoint S f' 0 x 0 = normalizePoint S ⟨f', 0, x, 0⟩ from rfl,
      normalizePoint_of_nonneg
        (show 0 + x + 0 ≠ 0 from (by linarith : (0 : R) < 0 + x + 0).ne')
        (le_refl 0) hx.le (le_refl 0)]
    simp only [normalizePost]
    rw [if_neg (by rintro ⟨h, -, -⟩; exact lt_irrefl 0 h),
      show (3 : ℕ) = 2 + 1 from rfl,
      normalizeLoop_rot 2 (Or.inr rfl) (Ne.symm d1),
      normalizeLoop_stop (by push_neg; exact ⟨rfl, hx.ne'⟩)]
  · have hr : rotatedTriple S ⟨S.nextInFaceMap (S.nextInFaceMap f'), x, 0, 0⟩ f' =
        (0, 0, x) := by
      simp only [rotatedTriple, nextInFace]
      rw [if_neg d3, if_pos h3.symm]
    rw [hr,
      show mkPoint S f' 0 0 x = normalizePoint S ⟨f', 0, 0, x⟩ from rfl,
      normalizePoint_of_nonneg
        (show 0 + 0 + x ≠ 0 from (by linarith : (0 : R) < 0 + 0 + x).ne')
        (le_refl 0) (le_refl 0) hx.le]
    simp only [normalizePost]
    rw [if_neg (by rintro ⟨h, -, -⟩; exact lt_irrefl 0 h),
      show (3 : ℕ) = (1 + 1) + 1 from rfl,
      normalizeLoop_rot (1 + 1) (Or.inl hx.ne') (Ne.symm d1),
      normalizeLoop_rot 1 (Or.inr rfl) (Ne.symm d2),
      normalizeLoop_stop (by push_neg; exact ⟨rfl, hx.ne'⟩)]

theorem mkPoint_rot_vertexB {S : FlatTriangulation R} {f' g : ℤ} {x : R}
    (hv : CombValid S) (hc : check S = true) (hf' : f' ∈ S.halfEdges)
    (hx : 0 < x)
    (hg : g = f' ∨ g = S.nextInFaceMap f' ∨ g = S.nextInFaceMap (S.nextInFaceMap f')) :
    mkPoint S f' (rotatedTriple S ⟨g, 0, x, 0⟩ f').1
      (rotatedTriple S ⟨g, 0, x, 0⟩ f').2.1
      (rotatedTriple S ⟨g, 0, x, 0⟩ f').2.2 = .ok ⟨S.nextInFaceMap g, x, 0, 0⟩ := by
  obtain ⟨d1, d2, d3⟩ := face_distinct hv hc hf'
  have h3 : S.nextInFaceMap (S.nextInFaceMap (S.nextInFaceMap f')) = f' := (hv f' hf').2.2.2
  rcases hg with rfl | rfl | rfl
  · have hr : rotatedTriple S ⟨g, 0, x, 0⟩ g = (0, x, 0) := by
      simp [rotatedTriple]
    rw [hr,
      show mkPoint S g 0 x 0 = normalizePoint S ⟨g, 0, x, 0⟩ from rfl,
      normalizePoint_of_nonneg
        (show 0 + x + 0 ≠ 0 from (by linarith : (0 : R) < 0 + x + 0).ne')
        (le_refl 0) hx.le (le_refl 0)]
    simp only [normalizePost]
    rw [if_neg (by rintro ⟨h, -, -⟩; exact lt_irrefl 0 h),
      show (3 : ℕ) = 2 + 1 from rfl,
      normalizeLoop_rot 2 (Or.inr rfl) (Ne.symm d1),
      normalizeLoop_stop (by push_neg; exact ⟨rfl, hx.ne'⟩)]
  · have hr : rotatedTriple S ⟨S.nextInFaceMap f', 0, x, 0⟩ f' = (0, 0, x) := by
      simp only [rotatedTriple, nextInFace]
      rw [if_neg d1, if_neg d3]
    rw [hr,
      show mkPoint S f' 0 0 x = normalizePoint S ⟨f', 0, 0, x⟩ from rfl,
      normalizePoint_of_nonneg
        (show 0 + 0 + x ≠ 0 from (by linarith : (0 : R) < 0 + 0 + x).ne')
        (le_refl 0) (le_refl 0) hx.le]
    simp only [normalizePost]
    rw [if_neg (by rintro ⟨h, -, -⟩; exact lt_irrefl 0 h),
      show (3 : ℕ) = (1 + 1) + 1 from rfl,
      normalizeLoop_rot (1 + 1) (Or.inl hx.ne') (Ne.symm d1),
      normalizeLoop_rot 1 (Or.inr rfl) (Ne.symm d2),
      normalizeLoop_stop (by push_neg; exact ⟨rfl, hx.ne'⟩)]
  · have hr : rotatedTriple S ⟨S.nextInFaceMap (S.nextInFaceMap f'), 0, x, 0⟩ f' =
        (x, 0, 0) := by
      simp only [rotatedTriple, nextInFace]
      rw [if_neg d3, if_pos h3.symm]
    rw [hr, h3]
    exact mkPoint_vertex_form hx

theorem findSome?_unique {α β : Type} {f : α → Option β} {l : List α} {a : α} {b : β}
    (ha : a ∈ l) (hb : f a = some b) (huniq : ∀ x ∈ l, x ≠ a → f x = none) :
    List.findSome? f l = some b := by
  induction l with
  | nil => cases ha
  | cons x xs ih =>
      rw [List.findSome?_cons]
      by_cases hx : x = a
      · subst hx
        rw [hb]
      · rw [huniq x (List.mem_cons_self x xs) hx]
        show List.findSome? f xs = some b
        refine ih ?_ ?_
        · rcases List.mem_cons.1 ha with h | h
          · exact absurd h.symm hx
          · exact h
        · intro y hy hya
          exact huniq y (List.mem_cons_of_mem _ hy) hya

theorem pointIn_self (S : FlatTriangulation R) (p : PointData R) :
    pointIn S p p.face = true := by
  simp [pointIn, face3]

theorem coordinates_first_scan {S : FlatTriangulation R} {p : PointData R} {f : ℤ}
    (hin : pointIn S p f = true) (hmem : p.face ∈ face3 S f) :
    coordinates S p f = .ok (rotatedTriple S p f) := by
  simp only [coordinates]
  rw [if_neg (not_not_intro hin),
    if_pos (List.any_eq_true.2 ⟨p.face, hmem, by simp⟩)]

theorem pointEqB_of_coords {S : FlatTriangulation R} {q p : PointData R}
    (hqv : ¬(q.b = 0 ∧ q.c = 0)) (hin2 : pointIn S p q.face = true)
    (hco : coordinates S p q.face = .ok (q.a, q.b, q.c)) :
    pointEqB S q p = true := by
  simp only [pointEqB]
  rw [if_neg (not_not_intro hin2), if_neg hqv, hco]
  simp

theorem pointEqB_vertex_of_orbit {S : FlatTriangulation R} {pf g : ℤ} {pa x : R}
    (hv : CombValid S) (ht : pf ∈ S.halfEdges)
    (hg : g ∈ atVertexList S pf) :
    pointEqB S ⟨g, x, 0, 0⟩ ⟨pf, pa, 0, 0⟩ = true := by
  have htg : pf ∈ atVertexList S g := atVertexList_symm hv ht hg
  have hpon : pointOn S ⟨pf, pa, 0, 0⟩ g = true := by
    simp only [pointOn]
    rw [if_pos (by simp)]
    simp [vertexEqB, hg]
  have hin2 : pointIn S ⟨pf, pa, 0, 0⟩ g = true := by
    simp only [pointIn, Bool.or_eq_true, List.any_eq_true]
    right
    exact ⟨g, by simp [face3], hpon⟩
  simp only [pointEqB]
  rw [if_neg (not_not_intro hin2), if_pos (by simp)]
  simp [vertexEqB, htg]

/-! ### The collapse-edge selection of eliminateMarkedPoints -/

theorem edgeFold_min (S : FlatTriangulation R) (v : ℤ) :
    ∀ (L : List ℤ) (col : Option ℤ) (c : ℤ),
      L.foldl (edgeStep S v) col = some c →
      (∀ out ∈ L, -out ∉ atVertexList S v → lenSq S c ≤ lenSq S out) ∧
      (∀ c0, col = some c0 → lenSq S c ≤ lenSq S c0) := by
  intro L
  induction L with
  | nil =>
    intro col c hfold
    simp only [List.foldl_nil] at hfold
    refine ⟨by simp, ?_⟩
    intro c0 h0
    rw [h0] at hfold
    obtain rfl := Option.some.inj hfold
    exact le_refl _
  | cons out L ih =>
    intro col c hfold
    simp only [List.foldl_cons] at hfold
    obtain ⟨ih1, ih2⟩ := ih (edgeStep S v col out) c hfold
    by_cases hmem : -out ∈ atVertexList S v
    · have hstep : edgeStep S v col out = col := by simp [edgeStep, hmem]
      constructor
      · intro o ho hvo
        rcases List.mem_cons.1 ho with rfl | ho'
        · exact absurd hmem hvo
        · exact ih1 o ho' hvo
      · intro c0 h0
        exact ih2 c0 (hstep.trans h0)
    · cases col with
      | none =>
        have hstep : edgeStep S v none out = some out := by simp [edgeStep, hmem]
        have hout : lenSq S c ≤ lenSq S out := ih2 out hstep
        constructor
        · intro o ho hvo
          rcases List.mem_cons.1 ho with rfl | ho'
          · exact hout
          · exact ih1 o ho' hvo
        · intro c0 h0
          exact absurd h0 (by simp)
      | some c0 =>
        by_cases hlt : lenSq S c0 < lenSq S out
        · have hstep : edgeStep S v (some c0) out = some c0 := by simp [edgeStep, hmem, hlt]
          have hc0 : lenSq S c ≤ lenSq S c0 := ih2 c0 hstep
          constructor
          · intro o ho hvo
            rcases List.mem_cons.1 ho with rfl | ho'
            · exact hc0.trans hlt.le
            · exact ih1 o ho' hvo
          · intro c1 h1
            obtain rfl := Option.some.inj h1
            exact hc0
        · have hstep : edgeStep S v (some c0) out = some out := by simp [edgeStep, hmem, hlt]
          have hout : lenSq S c ≤ lenSq S out := ih2 out hstep
          constructor
          · intro o ho hvo
            rcases List.mem_cons.1 ho with rfl | ho'
            · exact hout
            · exact ih1 o ho' hvo
          · intro c1 h1
            obtain rfl := Option.some.inj h1
            exact hout.trans (not_lt.1 hlt)

/-! ### Claim theorems -/

/-- C1: every `FlatTriangulation` observable through the public interface
satisfies the geometric invariant: the three half-edge vectors of each
(non-boundary) face sum to zero and turn strictly counter-clockwise.  The
invariant is verified by `check` at construction and re-verified after every
flip, so both the constructor and `flip` only ever return surfaces satisfying
it. -/
theorem claim_C1 :
    (∀ (hE : List ℤ) (nx : ℤ → ℤ) (ev : ℤ → Vec R) (S : FlatTriangulation R),
      mk' hE nx ev = .ok S → S.GeometricInvariant) ∧
    (∀ (S S' : FlatTriangulation R) (e : ℤ), flip S e = .ok S' → S'.GeometricInvariant) := by
  constructor
  · intro hE nx ev S hmk
    simp only [mk'] at hmk
    split_ifs at hmk with hchk
    rw [Except.ok.injEq] at hmk
    subst hmk
    exact geometricInvariant_of_check hchk
  · intro S S' e hf
    simp only [flip] at hf
    split_ifs at hf with h1 h2
    rw [Except.ok.injEq] at hf
    subst hf
    exact geometricInvariant_of_check h2

/-- Witness for C1: the constructor applied to the data of the square torus
returns a surface, and that surface satisfies the geometric invariant. -/
theorem claim_C1_witness : torus.GeometricInvariant :=
  claim_C1.1 torus.halfEdges torus.nextInFaceMap torus.edgeVec torus rfl

/-- C2: on a valid triangulation, `flip(e)` succeeds exactly when
`convex(e, true)` holds; otherwise it fails with `std::invalid_argument`
before any mutation, so the triangulation is left unchanged. -/
theorem claim_C2 : ∀ (S : FlatTriangulation R) (e : ℤ),
    CombValid S → check S = true → e ∈ S.halfEdges →
    ((∃ S', flip S e = .ok S') ↔ convex S e true = true) ∧
    (convex S e true = false → flip S e = .error .invalidArgument) := by
  intro S e hv hc he
  constructor
  · constructor
    · rintro ⟨S', hS'⟩
      by_contra hcx
      have hfalse : convex S e true = false := by
        revert hcx; cases convex S e true <;> simp
      simp [flip, hfalse] at hS'
    · intro hcx
      have ff := mkFlipFacts hv hc he hcx
      exact ⟨_, ff.flip_eq_ok hv hc⟩
  · intro hcx
    simp [flip, hcx]

/-- Witness for C2 at the square torus and its half edge 1. -/
theorem claim_C2_witness :
    ((∃ S', flip torus 1 = .ok S') ↔ convex torus 1 true = true) ∧
    (convex torus 1 true = false → flip torus 1 = .error .invalidArgument) :=
  claim_C2 torus 1 (by decide) (by decide) (by decide)

/-- C5: `delaunay(edge)` returns exactly one of the three classifications,
determined by the sign of the exact 3×3 in-circle determinant of the two
adjacent triangles with the fourth corner at the origin: negative determinant
means DELAUNAY, zero means AMBIGUOUS, positive means NON_DELAUNAY. -/
theorem claim_C5 : ∀ (S : FlatTriangulation R) (e : ℤ),
    (S.delaunay e = .DELAUNAY ↔ (inCircleMatrix S e).det < 0) ∧
    (S.delaunay e = .AMBIGUOUS ↔ (inCircleMatrix S e).det = 0) ∧
    (S.delaunay e = .NON_DELAUNAY ↔ 0 < (inCircleMatrix S e).det) := by
  intro S e
  have hdet : (inCircleMatrix S e).det = delaunayDet S e := by
    simp only [inCircleMatrix, delaunayDet, Matrix.det_fin_three, Matrix.of_apply,
      Matrix.cons_val_zero, Matrix.cons_val_one, Matrix.head_cons, Matrix.cons_val_two,
      Matrix.tail_cons, Matrix.head_fin_const]
    ring
  have key : S.delaunay e =
      if delaunayDet S e < 0 then Delaunay.DELAUNAY
      else if delaunayDet S e = 0 then Delaunay.AMBIGUOUS
      else Delaunay.NON_DELAUNAY := rfl
  rw [hdet, key]
  rcases lt_trichotomy (delaunayDet S e) 0 with h | h | h
  · simp [h, h.ne, asymm h]
  · simp [h]
  · simp [h, h.ne', asymm h, not_lt.2 h.le]

/-- Instantiation of C5 at the square torus and its diagonal edge 3 (a
concrete AMBIGUOUS case). -/
theorem claim_C5_witness :
    (torus.delaunay 3 = .DELAUNAY ↔ (FlatTriangulation.inCircleMatrix torus 3).det < 0) ∧
    (torus.delaunay 3 = .AMBIGUOUS ↔ (FlatTriangulation.inCircleMatrix torus 3).det = 0) ∧
    (torus.delaunay 3 = .NON_DELAUNAY ↔ 0 < (FlatTriangulation.inCircleMatrix torus 3).det) :=
  claim_C5 torus 3

/-- Counterexample to C6 as stated: on the square torus, flipping the
diagonal edge twice is legal (`convex` holds before each flip), but the
resulting triangulation is NOT equal to the original under `operator==`: the
flipped half edge comes back with its vector negated and the face cycles of
`e` and `-e` exchanged. -/
theorem claim_C6_counterexample :
    convex torus 1 true = true ∧
    (flip torus 1).map (fun S1 => convex S1 1 true) = .ok true ∧
    ((flip torus 1).bind (fun S1 => flip S1 1)).map (fun S2 => surfEq S2 torus) =
      .ok false := by
  refine ⟨by decide, by decide, by decide⟩

/-- C6 amended: flipping a strictly convex edge twice yields the original
surface with the half edge `e` relabelled to `-e` (its vector negated and the
face cycles of `e` and `-e` exchanged) — not the original surface itself;
flipping four times round-trips exactly, all four flips being legal. -/
theorem claim_C6_amended : ∀ (S : FlatTriangulation R) (e : ℤ),
    CombValid S → check S = true → e ∈ S.halfEdges → convex S e true = true →
    ∃ S1 S2 S3 S4,
      flip S e = .ok S1 ∧ flip S1 e = .ok S2 ∧ flip S2 e = .ok S3 ∧ flip S3 e = .ok S4 ∧
      surfEq S2 (S.reverseEdgeLabel e) = true ∧ surfEq S2 S = false ∧
      surfEq S4 S = true := by
  intro S e hv hc he hcx
  have ff := mkFlipFacts hv hc he hcx
  have hv1 := ff.combValid_flipComb hv
  have hc1 := ff.check_flipComb hv hc
  have ff1 := ff.step hv
  have hv2 := ff1.combValid_flipComb hv1
  have hc2 := ff1.check_flipComb hv1 hc1
  have ff2 := ff1.step hv1
  have hv3 := ff2.combValid_flipComb hv2
  have hc3 := ff2.check_flipComb hv2 hc2
  refine ⟨_, _, _, _, ff.flip_eq_ok hv hc, ff1.flip_eq_ok hv1 hc1,
    ff2.flip_eq_ok hv2 hc2, (ff2.step hv2).flip_eq_ok hv3 hc3, ?_, ?_, ?_⟩
  · rw [surfEq_iff]
    refine ⟨rfl, ?_, ?_⟩
    · intro h hh
      rw [ff.double_next hv hh, reverseEdgeLabel_next]
    · intro h hh
      rw [ff.double_vec hv h, reverseEdgeLabel_vec S ff.e0 h]
  · have hne : ¬ (surfEq ((S.flipComb e).flipComb e) S = true) := by
      rw [surfEq_iff]
      rintro ⟨-, -, hvec⟩
      have hcon := hvec e ff.mem_e
      rw [ff.double_vec hv e, if_pos rfl] at hcon
      apply ff.nz_e
      have c1 := congrArg Prod.fst hcon
      have c2 := congrArg Prod.snd hcon
      simp only [Prod.fst_neg, Prod.snd_neg] at c1 c2
      exact vec_zero_of_comps (by linarith) (by linarith)
    cases hq : surfEq ((S.flipComb e).flipComb e) S
    · rfl
    · exact absurd hq hne
  · rw [surfEq_iff]
    refine ⟨rfl, ?_, ?_⟩
    · intro h hh
      have hmem : eSwap e h ∈ S.halfEdges := eSwap_mem hh ff.mem_e ff.mem_ne
      rw [ff2.double_next hv2 hh, ff.double_next hv hmem, eSwap_invol, eSwap_invol]
    · intro h hh
      rw [ff2.double_vec hv2 h]
      by_cases h1 : h = e
      · rw [h1, if_pos rfl, ff.double_vec hv e, if_pos rfl, neg_neg]
      · by_cases h2 : h = -e
        · rw [h2, if_neg (Ne.symm ff.ene), if_pos rfl, ff.double_vec hv e, if_pos rfl,
            S.fromHalfEdge_neg ff.e0]
        · rw [if_neg h1, if_neg h2, ff.double_vec hv h, if_neg h1, if_neg h2]

/-- Witness for the amended C6 at the square torus and its half edge 1. -/
theorem claim_C6_amended_witness :
    ∃ S1 S2 S3 S4,
      flip torus 1 = .ok S1 ∧ flip S1 1 = .ok S2 ∧ flip S2 1 = .ok S3 ∧
      flip S3 1 = .ok S4 ∧ surfEq S2 (torus.reverseEdgeLabel 1) = true ∧
      surfEq S2 torus = false ∧ surfEq S4 torus = true :=
  claim_C6_amended torus 1 (by decide) (by decide) (by decide) (by decide)

/-- Counterexample to C7 as stated: on the marked torus, the selection phase
of `eliminateMarkedPoints` picks half edge 4 (squared length 61) at the
angle-2π marked point, although half edge 5 (squared length 181) is an equally
admissible outgoing candidate at the same vertex — the code prefers the
candidate of SMALLER squared length, not larger. -/
theorem claim_C7_counterexample :
    selectCollapse markedTorus = some 4 ∧
    angleAt markedTorus 4 = 1 ∧
    (5 : ℤ) ∈ atVertexList markedTorus 4 ∧
    (-5 : ℤ) ∉ atVertexList markedTorus 4 ∧
    lenSq markedTorus 4 < lenSq markedTorus 5 := by
  refine ⟨by decide, by decide, by decide, by decide, by decide⟩

/-- C7 amended: the tie-breaking of `eliminateMarkedPoints` (i) does prefer
vertices with fewer outgoing half edges as the moving point — an angle-2π
vertex with strictly more outgoing half edges than the current candidate's
source vertex is skipped — but (ii) among the admissible outgoing half edges
it prefers the one of SMALLEST squared length: the inner loop's result is a
running minimum of `fromHalfEdge(e)·fromHalfEdge(e)` over the admissible
candidates (and never exceeds the incoming candidate's squared length). -/
theorem claim_C7_amended :
    (∀ (S : FlatTriangulation R) (c v : ℤ),
      angleAt S v = 1 →
      (atVertexList S c).length < (atVertexList S v).length →
      vertexStep S (some c) v = some c) ∧
    (∀ (S : FlatTriangulation R) (v : ℤ) (col : Option ℤ) (c : ℤ),
      edgeSelect S v col = some c →
      (∀ out ∈ atVertexList S v, -out ∉ atVertexList S v → lenSq S c ≤ lenSq S out) ∧
      (∀ c0, col = some c0 → lenSq S c ≤ lenSq S c0)) := by
  constructor
  · intro S c v h1 h2
    simp [vertexStep, vertexSkip, h1, h2]
  · intro S v col c hsel
    exact edgeFold_min S v (atVertexList S v) col c hsel

/-- Witness for the amended C7 on the marked torus: the 9-edge corner vertex
is skipped once the 3-edge marked point is the candidate, and the selected
half edge 4 is no longer than the admissible candidate 5. -/
theorem claim_C7_amended_witness :
    vertexStep markedTorus (some 4) 1 = some 4 ∧
    lenSq markedTorus 4 ≤ lenSq markedTorus 5 :=
  ⟨claim_C7_amended.1 markedTorus 4 1 (by decide) (by decide),
   (claim_C7_amended.2 markedTorus 4 none 4 (by decide)).1 5 (by decide) (by decide)⟩

/-- C8: the coordinate-change round trip.  For every normalized point `p` of
a valid surface and every half edge `f'` whose face contains `p`
(`p.in(f')`), `p.coordinates(f')` succeeds, the `Point` constructor accepts
the resulting barycentric coordinates at `f'`, and the reconstructed point
equals `p` under `Point::operator==`. -/
theorem claim_C8 : ∀ (S : FlatTriangulation R) (p : PointData R) (f' : ℤ),
    CombValid S → check S = true → PointNormal S p → f' ∈ S.halfEdges →
    pointIn S p f' = true →
    ∃ r q, coordinates S p f' = .ok r ∧
      mkPoint S f' r.1 r.2.1 r.2.2 = .ok q ∧ pointEqB S q p = true := by
  intro S p f' hv hc hnorm hf' hin
  obtain ⟨ht, hforms⟩ := hnorm
  obtain ⟨d1, d2, d3⟩ := face_distinct hv hc hf'
  have h3 : S.nextInFaceMap (S.nextInFaceMap (S.nextInFaceMap f')) = f' := (hv f' hf').2.2.2
  have hmem_face3 : ∀ x : ℤ, x ∈ face3 S f' ↔
      x = f' ∨ x = S.nextInFaceMap f' ∨ x = S.nextInFaceMap (S.nextInFaceMap f') := by
    intro x
    simp [face3]
  have hsideE : ∀ side ∈ face3 S f', side ∈ S.halfEdges := by
    intro side hside
    rcases (hmem_face3 side).1 hside with rfl | rfl | rfl
    · exact hf'
    · exact (hv f' hf').2.2.1
    · exact (hv _ (hv f' hf').2.2.1).2.2.1
  obtain ⟨pf, pa, pb, pc⟩ := p
  have htE : pf ∈ S.halfEdges := ht
  rcases hforms with ⟨ha, hb, hc'⟩ | ⟨ha, hb, hc'⟩ | ⟨ha, hb, hc'⟩
  · -- interior point: its own face must be a side of the target face
    have hb' : (0 : R) < pb := hb
    have hc'' : (0 : R) < pc := hc'
    have hponF : ∀ side : ℤ, pointOn S ⟨pf, pa, pb, pc⟩ side = false := by
      intro side
      simp only [pointOn]
      rw [if_neg (by rintro ⟨h0, -⟩; exact hb'.ne' h0)]
      simp [hc''.ne']
    have hmem : pf ∈ face3 S f' := by
      have h := hin
      simp only [pointIn, Bool.or_eq_true, List.any_eq_true] at h
      rcases h with ⟨side, hside, hdec⟩ | ⟨side, hside, hon⟩
      · simp only [decide_eq_true_eq] at hdec
        exact hdec ▸ hside
      · rw [hponF side] at hon
        cases hon
    have hcoord : coordinates S ⟨pf, pa, pb, pc⟩ f' =
        .ok (rotatedTriple S ⟨pf, pa, pb, pc⟩ f') :=
      coordinates_first_scan hin hmem
    obtain ⟨q, hqface, hqa, hqb, hqc, hqr, hmk⟩ :=
      mkPoint_rot_pos hv hc hf' ha hb' hc'' ((hmem_face3 pf).1 hmem)
    refine ⟨rotatedTriple S ⟨pf, pa, pb, pc⟩ f', q, hcoord, hmk, ?_⟩
    refine pointEqB_of_coords (by rintro ⟨h0, -⟩; exact hqb.ne' h0) ?_ ?_
    · rw [hqface]
      exact hin
    · rw [hqface, hcoord, hqr]
  · -- edge point
    subst hc'
    have ha' : (0 : R) < pa := ha
    have hb' : (0 : R) < pb := hb
    have hpon : ∀ side : ℤ, pointOn S ⟨pf, pa, pb, 0⟩ side = true ↔
        (pf = side ∨ pf = -side) := by
      intro side
      simp only [pointOn]
      rw [if_neg (by rintro ⟨h0, -⟩; exact hb'.ne' h0)]
      simp
    have hcond1 : sideCoord S ⟨pf, pa, pb, 0⟩ (-pf) = some ⟨-pf, pb, pa, 0⟩ := by
      simp [sideCoord]
    have hother : ∀ side : ℤ, side ≠ -pf → sideCoord S ⟨pf, pa, pb, 0⟩ side = none := by
      intro side hs
      simp only [sideCoord]
      rw [if_neg (by rintro ⟨h1, -⟩; exact hs (by have h1' : pf = -side := h1; omega)),
        if_neg (by rintro ⟨-, h2, -⟩; exact hb'.ne' h2)]
    by_cases hmem : pf ∈ face3 S f'
    · -- the stored face is a side of the target face: reconstruct to p itself
      have hcoord : coordinates S ⟨pf, pa, pb, 0⟩ f' =
          .ok (rotatedTriple S ⟨pf, pa, pb, 0⟩ f') :=
        coordinates_first_scan hin hmem
      have hmk := mkPoint_rot_edge hv hc hf' ha' hb' ((hmem_face3 pf).1 hmem)
      refine ⟨rotatedTriple S ⟨pf, pa, pb, 0⟩ f', ⟨pf, pa, pb, 0⟩, hcoord, hmk, ?_⟩
      refine pointEqB_of_coords (by rintro ⟨h0, -⟩; exact hb'.ne' h0)
        (pointIn_self S ⟨pf, pa, pb, 0⟩) ?_
      show coordinates S ⟨pf, pa, pb, 0⟩ pf = _
      rw [coordinates_first_scan (pointIn_self S ⟨pf, pa, pb, 0⟩) (by simp [face3])]
      simp [rotatedTriple]
    · -- the target face is reached across the reversed half edge
      have hmemB : -pf ∈ face3 S f' := by
        have h := hin
        simp only [pointIn, Bool.or_eq_true, List.any_eq_true] at h
        rcases h with ⟨side, hside, hdec⟩ | ⟨side, hside, hon⟩
        · simp only [decide_eq_true_eq] at hdec
          exact absurd (hdec ▸ hside) hmem
        · rcases (hpon side).1 hon with h1 | h2
          · exact absurd (h1 ▸ hside) hmem
          · have hs : side = -pf := by omega
            exact hs ▸ hside
      have hscanF : (face3 S f').any (fun side => decide (side = pf)) = false := by
        rw [List.any_eq_false]
        intro side hside hdec
        simp only [decide_eq_true_eq] at hdec
        exact hmem (hdec ▸ hside)
      have hfs : (face3 S f').findSome? (sideCoord S ⟨pf, pa, pb, 0⟩) =
          some ⟨-pf, pb, pa, 0⟩ :=
        findSome?_unique hmemB hcond1 (fun x _ hx => hother x hx)
      have hcoord : coordinates S ⟨pf, pa, pb, 0⟩ f' =
          .ok (rotatedTriple S ⟨-pf, pb, pa, 0⟩ f') := by
        simp only [coordinates]
        rw [if_neg (not_not_intro hin), if_neg (by simp [hscanF]), hfs]
      have hmk := mkPoint_rot_edge hv hc hf' hb' ha' ((hmem_face3 (-pf)).1 hmemB)
      refine ⟨rotatedTriple S ⟨-pf, pb, pa, 0⟩ f', ⟨-pf, pb, pa, 0⟩, hcoord, hmk, ?_⟩
      have hponneg : pointOn S ⟨pf, pa, pb, 0⟩ (-pf) = true := by
        rw [hpon (-pf)]
        right
        omega
      have hin2 : pointIn S ⟨pf, pa, pb, 0⟩ (-pf) = true := by
        simp only [pointIn, Bool.or_eq_true, List.any_eq_true]
        right
        exact ⟨-pf, by simp [face3], hponneg⟩
      refine pointEqB_of_coords (by rintro ⟨h0, -⟩; exact ha'.ne' h0) hin2 ?_
      show coordinates S ⟨pf, pa, pb, 0⟩ (-pf) = _
      obtain ⟨e1, e2, e3⟩ := not_mem_face_neg hv hc htE
      have hscanneg : (face3 S (-pf)).any (fun side => decide (side = pf)) = false := by
        rw [List.any_eq_false]
        intro side hside hdec
        simp only [decide_eq_true_eq] at hdec
        subst hdec
        simp only [face3, List.mem_cons, List.not_mem_nil, or_false] at hside
        rcases hside with h | h | h
        · exact e1 h
        · exact e2 h
        · exact e3 h
      have hfs2 : (face3 S (-pf)).findSome? (sideCoord S ⟨pf, pa, pb, 0⟩) =
          some ⟨-pf, pb, pa, 0⟩ :=
        findSome?_unique (by simp [face3]) hcond1 (fun x _ hx => hother x hx)
      simp only [coordinates]
      rw [if_neg (not_not_intro hin2), if_neg (by simp [hscanneg]), hfs2]
      congr 1
      simp [rotatedTriple]
  · -- vertex point
    subst hb
    subst hc'
    have ha' : (0 : R) < pa := ha
    have hveq : ∀ k : ℤ, vertexEqB S pf k = true ↔ k ∈ atVertexList S pf := by
      intro k
      simp [vertexEqB]
    have hpon : ∀ side : ℤ, pointOn S ⟨pf, pa, 0, 0⟩ side = true ↔
        (vertexEqB S pf side = true ∨ vertexEqB S pf (-side) = true) := by
      intro side
      simp only [pointOn]
      rw [if_pos (by simp)]
      simp
    have hside_orbit : ∃ side ∈ face3 S f', side ∈ atVertexList S pf := by
      have h := hin
      simp only [pointIn, Bool.or_eq_true, List.any_eq_true] at h
      rcases h with ⟨side, hside, hdec⟩ | ⟨side, hside, hon⟩
      · simp only [decide_eq_true_eq] at hdec
        have hdec' : pf = side := hdec
        subst hdec'
        exact ⟨pf, hside, self_mem_atVertexList hv htE⟩
      · rcases (hpon side).1 hon with h1 | h2
        · exact ⟨side, hside, (hveq side).1 h1⟩
        · have hsE : side ∈ S.halfEdges := hsideE side hside
          have hnegmem : -side ∈ atVertexList S (S.nextInFaceMap side) :=
            neg_mem_atVertexList_next hv hsE
          have hnextE : S.nextInFaceMap side ∈ S.halfEdges := (hv side hsE).2.2.1
          have horbit : S.nextInFaceMap side ∈ atVertexList S pf :=
            atVertexList_trans hv htE hnextE ((hveq _).1 h2) hnegmem
          refine ⟨S.nextInFaceMap side, ?_, horbit⟩
          rcases (hmem_face3 side).1 hside with rfl | rfl | rfl
          · exact (hmem_face3 _).2 (Or.inr (Or.inl rfl))
          · exact (hmem_face3 _).2 (Or.inr (Or.inr rfl))
          · rw [h3]
            exact (hmem_face3 _).2 (Or.inl rfl)
    by_cases hscan1 : pf ∈ face3 S f'
    · have hcoord : coordinates S ⟨pf, pa, 0, 0⟩ f' =
          .ok (rotatedTriple S ⟨pf, pa, 0, 0⟩ f') :=
        coordinates_first_scan hin hscan1
      have hmk := mkPoint_rot_vertex hv hc hf' ha' ((hmem_face3 pf).1 hscan1)
      refine ⟨rotatedTriple S ⟨pf, pa, 0, 0⟩ f', ⟨pf, pa, 0, 0⟩, hcoord, hmk, ?_⟩
      exact pointEqB_vertex_of_orbit hv htE (self_mem_atVertexList hv htE)
    · have hscanF : (face3 S f').any (fun side => decide (side = pf)) = false := by
        rw [List.any_eq_false]
        intro side hside hdec
        simp only [decide_eq_true_eq] at hdec
        exact hscan1 (hdec ▸ hside)
      cases hfsem : (face3 S f').findSome? (sideCoord S ⟨pf, pa, 0, 0⟩) with
      | some q0 =>
          obtain ⟨side, hside, hsc⟩ := List.exists_of_findSome?_eq_some hfsem
          by_cases hcnd1 : pf = -side
          · have hsc1 : sideCoord S ⟨pf, pa, 0, 0⟩ side = some ⟨side, 0, pa, 0⟩ := by
              simp [sideCoord, hcnd1]
            rw [hsc1] at hsc
            rw [Option.some.injEq] at hsc
            obtain rfl := hsc
            have hcoord : coordinates S ⟨pf, pa, 0, 0⟩ f' =
                .ok (rotatedTriple S ⟨side, 0, pa, 0⟩ f') := by
              simp only [coordinates]
              rw [if_neg (not_not_intro hin), if_neg (by simp [hscanF]), hfsem]
            have hmk := mkPoint_rot_vertexB hv hc hf' ha' ((hmem_face3 side).1 hside)
            refine ⟨rotatedTriple S ⟨side, 0, pa, 0⟩ f',
              ⟨S.nextInFaceMap side, pa, 0, 0⟩, hcoord, hmk, ?_⟩
            have horb : S.nextInFaceMap side ∈ atVertexList S pf := by
              have hside' : side = -pf := by omega
              subst hside'
              exact pav_mem_atVertexList hv htE
            exact pointEqB_vertex_of_orbit hv htE horb
          · by_cases hcnd2 : S.previousInFace pf = -side
            · have hsc2 : sideCoord S ⟨pf, pa, 0, 0⟩ side = some ⟨side, pa, 0, 0⟩ := by
                simp only [sideCoord]
                rw [if_neg (by rintro ⟨h1, -⟩; exact hcnd1 h1), if_pos (by simp [hcnd2])]
              rw [hsc2] at hsc
              rw [Option.some.injEq] at hsc
              obtain rfl := hsc
              have hcoord : coordinates S ⟨pf, pa, 0, 0⟩ f' =
                  .ok (rotatedTriple S ⟨side, pa, 0, 0⟩ f') := by
                simp only [coordinates]
                rw [if_neg (not_not_intro hin), if_neg (by simp [hscanF]), hfsem]
              have hmk := mkPoint_rot_vertex hv hc hf' ha' ((hmem_face3 side).1 hside)
              refine ⟨rotatedTriple S ⟨side, pa, 0, 0⟩ f',
                ⟨side, pa, 0, 0⟩, hcoord, hmk, ?_⟩
              have hsideq : side = S.nextAtVertex pf := by
                simp only [nextAtVertex]
                omega
              have horb : side ∈ atVertexList S pf := by
                rw [hsideq]
                exact nav_mem_atVertexList hv htE
              exact pointEqB_vertex_of_orbit hv htE horb
            · have hsc3 : sideCoord S ⟨pf, pa, 0, 0⟩ side = none := by
                simp only [sideCoord]
                rw [if_neg (by rintro ⟨h1, -⟩; exact hcnd1 h1),
                  if_neg (by rintro ⟨h2, -⟩; exact hcnd2 h2)]
              rw [hsc3] at hsc
              exact absurd hsc (by simp)
      | none =>
          obtain ⟨side, hside, horb⟩ := hside_orbit
          obtain ⟨s, hfindeq, hsvq, hsmem⟩ :
              ∃ s, (face3 S f').find? (fun k => vertexEqB S pf k) = some s ∧
                vertexEqB S pf s = true ∧ s ∈ face3 S f' := by
            cases hf : (face3 S f').find? (fun k => vertexEqB S pf k) with
            | none =>
                exact absurd ((hveq side).2 horb) (List.find?_eq_none.1 hf side hside)
            | some s =>
                exact ⟨s, rfl, List.find?_some hf, List.mem_of_find?_eq_some hf⟩
          have hcoord : coordinates S ⟨pf, pa, 0, 0⟩ f' =
              .ok (rotatedTriple S ⟨s, 1, 0, 0⟩ f') := by
            simp only [coordinates]
            rw [if_neg (not_not_intro hin), if_neg (by simp [hscanF]), hfsem,
              if_pos (by simp), hfindeq]
          have hmk := mkPoint_rot_vertex (x := (1 : R)) hv hc hf' one_pos
            ((hmem_face3 s).1 hsmem)
          refine ⟨rotatedTriple S ⟨s, 1, 0, 0⟩ f', ⟨s, 1, 0, 0⟩, hcoord, hmk, ?_⟩
          exact pointEqB_vertex_of_orbit hv htE ((hveq s).1 hsvq)

/-- Witness for C8 on the square torus: the interior point `(1, 1, 1)` of the
face of half edge 1, re-expressed in the face of half edge 2. -/
theorem claim_C8_witness :
    ∃ r q, coordinates torus ⟨1, (1 : ℤ), 1, 1⟩ 2 = .ok r ∧
      mkPoint torus 2 r.1 r.2.1 r.2.2 = .ok q ∧
      pointEqB torus q ⟨1, (1 : ℤ), 1, 1⟩ = true :=
  claim_C8 torus ⟨1, (1 : ℤ), 1, 1⟩ 2 (by decide) (by decide) (by decide) (by decide)
    (by decide)

/-- Counterexample to C9 as stated: a negative barycentric coordinate does
NOT produce an invalid-argument error — `normalize()` throws
`std::logic_error` ("not implemented: cannot normalize point outside of a
face") for it, and reserves `std::invalid_argument` for coordinates summing
to zero. -/
theorem claim_C9_counterexample :
    mkPoint torus 1 ((-1 : ℤ)) 2 2 = .error .logicError ∧
    mkPoint torus 1 ((-1 : ℤ)) 2 2 ≠ .error .invalidArgument := by
  refine ⟨by decide, by decide⟩

/-- C9 amended: constructing a point from raw barycentric coordinates fails
with `std::invalid_argument` exactly when the coordinates sum to zero; it
fails with `std::logic_error` exactly when the sum is nonzero and some
coordinate is negative; and it succeeds — yielding a point in the canonical
normal form — exactly when the sum is nonzero and all coordinates are
nonnegative.  The validity hypotheses guarantee the surface has no degenerate
face, so the fuel given to the source's `while` loop in the model is
exact. -/
theorem claim_C9_amended : ∀ (S : FlatTriangulation R) (f : ℤ) (a b c : R),
    CombValid S → check S = true → f ∈ S.halfEdges →
    (mkPoint S f a b c = .error .invalidArgument ↔ a + b + c = 0) ∧
    (mkPoint S f a b c = .error .logicError ↔ a + b + c ≠ 0 ∧ (a < 0 ∨ b < 0 ∨ c < 0)) ∧
    ((∃ p, mkPoint S f a b c = .ok p ∧ PointNormal S p) ↔
      a + b + c ≠ 0 ∧ 0 ≤ a ∧ 0 ≤ b ∧ 0 ≤ c) := by
  intro S f a b c hv hck hf
  by_cases h0 : a + b + c = 0
  · refine ⟨by simp [mkPoint, normalizePoint, h0], by simp [mkPoint, normalizePoint, h0],
      by simp [mkPoint, normalizePoint, h0]⟩
  · by_cases hneg : a < 0 ∨ b < 0 ∨ c < 0
    · refine ⟨by simp [mkPoint, normalizePoint, h0, hneg],
        by simp [mkPoint, normalizePoint, h0, hneg], ?_⟩
      constructor
      · rintro ⟨p, hp, -⟩
        simp [mkPoint, normalizePoint, h0, hneg] at hp
      · rintro ⟨-, ha, hb, hc⟩
        rcases hneg with h | h | h <;> linarith
    · have hne := hneg
      push_neg at hneg
      obtain ⟨ha, hb, hc⟩ := hneg
      obtain ⟨p, hp⟩ : ∃ p, mkPoint S f a b c = .ok p := by
        simp only [mkPoint, normalizePoint, normalizePost, if_neg h0, if_neg hne]
        split_ifs <;> exact ⟨_, rfl⟩
      refine ⟨by rw [hp]; simp [h0], by rw [hp]; simp [hne], ?_⟩
      constructor
      · intro _
        exact ⟨h0, ha, hb, hc⟩
      · rintro ⟨-, -, -, -⟩
        exact mkPoint_normal hv hck hf h0 ha hb hc

/-- Witness for the amended C9 on the square torus with coordinates
`(1, 2, 3)` in the face of half edge 1. -/
theorem claim_C9_witness :
    (mkPoint torus 1 (1 : ℤ) 2 3 = .error .invalidArgument ↔ (1 : ℤ) + 2 + 3 = 0) ∧
    (mkPoint torus 1 (1 : ℤ) 2 3 = .error .logicError ↔
      ((1 : ℤ) + 2 + 3 ≠ 0 ∧ ((1 : ℤ) < 0 ∨ (2 : ℤ) < 0 ∨ (3 : ℤ) < 0))) ∧
    ((∃ p, mkPoint torus 1 (1 : ℤ) 2 3 = .ok p ∧ PointNormal torus p) ↔
      ((1 : ℤ) + 2 + 3 ≠ 0 ∧ (0 : ℤ) ≤ 1 ∧ (0 : ℤ) ≤ 2 ∧ (0 : ℤ) ≤ 3)) :=
  claim_C9_amended torus 1 1 2 3 (by decide) (by decide) (by decide)

/-- C10: the undocumented preconditions of the `Segment` constructors, for
every implementation of the helpers not present in the sources.  The
`(start, vector)` constructor fails with `std::invalid_argument` whenever the
starting point is a singularity (total angle not 2π); the
`(start, end, vector)` constructor fails with `std::invalid_argument` when
the endpoints live on different surfaces, when both endpoints are singular,
or when the vector is zero. -/
theorem claim_C10 : ∀ (ctx : SegmentCtx R) (S : FlatTriangulation R)
    (startP endP : SPoint R) (v : Vec R),
    (anglePoint S startP.pd ≠ 1 → segmentMk2 ctx S startP v = .error .invalidArgument) ∧
    (startP.sid ≠ endP.sid → segmentMk3 ctx S startP endP v = .error .invalidArgument) ∧
    (1 < anglePoint S startP.pd → 1 < anglePoint S endP.pd →
      segmentMk3 ctx S startP endP v = .error .invalidArgument) ∧
    (v = 0 → segmentMk3 ctx S startP endP v = .error .invalidArgument) := by
  intro ctx S startP endP v
  have hmk50 : ∀ (a : SPoint R) (src : ℤ) (b : SPoint R) (tgt : ℤ),
      segmentMk5 ctx S a src b tgt 0 = .error .invalidArgument := by
    intro a src b tgt
    simp only [segmentMk5]
    split_ifs
    all_goals first | rfl | exact absurd rfl (by assumption)
  have hcore0 : ∀ a b : SPoint R,
      segmentMk3Core ctx S a b 0 = .error .invalidArgument := by
    intro a b
    simp only [segmentMk3Core, segmentMkSrc]
    split_ifs
    · exact hmk50 _ _ _ _
    · exact hmk50 _ _ _ _
  refine ⟨?_, ?_, ?_, ?_⟩
  · intro h1
    simp only [segmentMk2]
    rw [if_pos h1]
  · intro h2
    simp only [segmentMk3]
    rw [if_pos h2]
  · intro hs he
    have hvend : endP.pd.b = 0 ∧ endP.pd.c = 0 := by
      by_contra hnv
      have h1 : anglePoint S endP.pd = 1 := by
        simp only [anglePoint]
        rw [if_neg hnv]
      omega
    simp only [segmentMk3]
    by_cases g1 : startP.sid ≠ endP.sid
    · rw [if_pos g1]
    · rw [if_neg g1, if_pos hs, if_pos ⟨hvend, by omega⟩]
  · intro h0
    subst h0
    simp only [segmentMk3]
    by_cases g1 : startP.sid ≠ endP.sid
    · rw [if_pos g1]
    · rw [if_neg g1]
      by_cases g2 : 1 < anglePoint S startP.pd
      · rw [if_pos g2]
        by_cases g3 : (endP.pd.b = 0 ∧ endP.pd.c = 0) ∧ anglePoint S endP.pd ≠ 1
        · rw [if_pos g3]
        · rw [if_neg g3, neg_zero, hcore0]
          rfl
      · rw [if_neg g2]
        exact hcore0 _ _

/-- Witness for C10: the singular vertex of the genus-2 L-surface (angle 6π)
as a starting point, two torus points on differently-tagged surfaces, two
singular L-surface vertices, and a zero vector on the torus. -/
theorem claim_C10_witness :
    (segmentMk2 plainSegCtx Lsurface ⟨0, ⟨1, (1 : ℤ), 0, 0⟩⟩ (1, 0) =
      .error .invalidArgument) ∧
    (segmentMk3 plainSegCtx torus ⟨0, ⟨1, (1 : ℤ), 1, 1⟩⟩ ⟨1, ⟨1, (1 : ℤ), 1, 1⟩⟩ (1, 0) =
      .error .invalidArgument) ∧
    (segmentMk3 plainSegCtx Lsurface ⟨0, ⟨1, (1 : ℤ), 0, 0⟩⟩ ⟨0, ⟨2, (1 : ℤ), 0, 0⟩⟩ (1, 0) =
      .error .invalidArgument) ∧
    (segmentMk3 plainSegCtx torus ⟨0, ⟨1, (1 : ℤ), 1, 1⟩⟩ ⟨0, ⟨1, (1 : ℤ), 1, 1⟩⟩ 0 =
      .error .invalidArgument) :=
  ⟨(claim_C10 plainSegCtx Lsurface ⟨0, ⟨1, 1, 0, 0⟩⟩ ⟨0, ⟨1, 1, 0, 0⟩⟩ (1, 0)).1 (by decide),
   (claim_C10 plainSegCtx torus ⟨0, ⟨1, 1, 1, 1⟩⟩ ⟨1, ⟨1, 1, 1, 1⟩⟩ (1, 0)).2.1 (by decide),
   (claim_C10 plainSegCtx Lsurface ⟨0, ⟨1, 1, 0, 0⟩⟩ ⟨0, ⟨2, 1, 0, 0⟩⟩ (1, 0)).2.2.1
     (by decide) (by decide),
   (claim_C10 plainSegCtx torus ⟨0, ⟨1, 1, 1, 1⟩⟩ ⟨0, ⟨1, 1, 1, 1⟩⟩ 0).2.2.2 rfl⟩

end FlatTriangulation

end Flatsurf
